import Mathlib

/-!
# A verification model of the validb core

This file is a shallow embedding, in Lean 4, of the core of the `validb`
embedded document store (`src/lib/Schema.ts`, `src/lib/Collection.ts`,
`src/adapters/secureJSON.adapter.ts`, `src/adapters/utils/dataCryptography.ts`).

JavaScript runtime values are modelled by the inductive type `Value`; documents
are association lists from field names to values (JavaScript objects have
unique keys, and all object operations below preserve that invariant).
Machine numbers are modelled as unbounded integers: the repository manipulates
numbers only through comparison and equality, never through overflow-sensitive
arithmetic; fractional IEEE values are outside the model.

Functions that the source defines by unbounded structural recursion on values
(`deepEqual`, `matchesQuery`, JSON encoding and decoding) are defined here with
an explicit fuel argument so that they stay kernel-computable; every wrapper
passes a fuel that is an upper bound on the recursion depth (the recursion
strictly decreases `sizeOf` of the scrutinised value, which the fuel dominates),
so the fuel never runs out on the wrapped calls.

Effects are made explicit: a thrown JavaScript `Error` is an `Except.error`
carrying the message the source builds, and a mutating collection operation
returns the document sequence that `writeCollectionData` would persist
(`Option` when the operation can decide to skip the write).  An operation that
returns `Except.error` aborts before reaching `writeCollectionData`, so the
persisted file is untouched by a failing call.
-/

namespace ValiDb

/-- A JavaScript runtime value as the repository manipulates them: the JSON
primitives, arrays, plain objects (ordered association lists, unique keys),
`Date` instances (carrying their epoch-milliseconds timestamp) and
`undefined`.  `vUndef` never occurs inside a stored document; it models the
result of reading an absent property. -/
inductive Value where
  | vUndef
  | vNull
  | vBool (b : Bool)
  | vNum (n : Int)
  | vStr (s : String)
  | vDate (millis : Nat)
  | vArr (elems : List Value)
  | vObj (fields : List (String × Value))

namespace Value

/-- The JavaScript `typeof` operator on the modelled values.  Note that
`typeof null`, `typeof` of an array and `typeof` of a `Date` are all the
string `"object"`. -/
def jsTypeof : Value → String
  | vUndef => "undefined"
  | vNull => "object"
  | vBool _ => "boolean"
  | vNum _ => "number"
  | vStr _ => "string"
  | vDate _ => "object"
  | vArr _ => "object"
  | vObj _ => "object"

/-- `Array.isArray`. -/
def isArray : Value → Bool
  | vArr _ => true
  | _ => false

/-- `value instanceof Date`. -/
def isDate : Value → Bool
  | vDate _ => true
  | _ => false

/-- JavaScript strict equality `===`, restricted to the modelled values.
Primitives compare structurally.  Two composites (objects, arrays, dates)
compare by reference in JavaScript; the embedding works with values produced
by distinct allocations (each deserialization allocates fresh objects), so a
composite is never `===` to another composite and the model returns `false`
for composite operands. -/
def jsStrictEq : Value → Value → Bool
  | vUndef, vUndef => true
  | vNull, vNull => true
  | vBool a, vBool b => a == b
  | vNum a, vNum b => a == b
  | vStr a, vStr b => a == b
  | _, _ => false

/-- `Object.keys`.  Own enumerable keys: field names of an object in insertion
order, index strings of an array or a string, nothing for a `Date` (it has no
own enumerable properties).  `Object.keys` on `null` or `undefined` throws in
JavaScript; the callers below either guard the argument or are only applied,
in the theorems, to values on which the source would not throw. -/
def jsKeys : Value → List String
  | vObj fs => fs.map Prod.fst
  | vArr es => (List.range es.length).map toString
  | vStr s => (List.range s.length).map toString
  | _ => []

/-- JavaScript property read `v[k]`, returning `undefined` for an absent
property.  Objects look up the (unique) field of that name; arrays and strings
answer index strings.  Reads on `null`/`undefined` throw in JavaScript and are
modelled separately by `jsPropE`. -/
def jsProp : Value → String → Value
  | vObj fs, k =>
      match fs.find? (fun p => p.1 == k) with
      | some p => p.2
      | none => vUndef
  | vArr es, k =>
      match (es.enum.find? (fun p => toString p.1 == k)) with
      | some p => p.2
      | none => vUndef
  | vStr s, k =>
      match (s.data.enum.find? (fun p => toString p.1 == k)) with
      | some p => vStr (String.mk [p.2])
      | none => vUndef
  | _, _ => vUndef

/-- Property read that surfaces the `TypeError` JavaScript throws when the
receiver is `null` or `undefined`. -/
def jsPropE (v : Value) (k : String) : Except Unit Value :=
  match v with
  | vNull => .error ()
  | vUndef => .error ()
  | _ => .ok (jsProp v k)

/-- JavaScript `ToNumber`, restricted to the modelled values: numbers are
themselves, booleans are 0 or 1, `null` is 0, a `Date` is its timestamp, the
empty string is 0 and other strings parse as (integer) numerals or are NaN;
`undefined`, arrays and objects are NaN (`none`).  (Array and object operands
coerce through `ToPrimitive` in full JavaScript; the repository compares only
field values, which are primitives, so the NaN approximation is never
observed by the modelled operations.) -/
def toNumber : Value → Option Int
  | vNum n => some n
  | vBool b => some (if b then 1 else 0)
  | vNull => some 0
  | vDate t => some (t : Int)
  | vStr s => if s = "" then some 0 else s.toInt?
  | _ => none

/-- The JavaScript abstract relational comparison underlying `<`, `>`, `<=`,
`>=`: two strings compare lexicographically, otherwise both sides convert
with `ToNumber` and a NaN on either side makes every comparison false
(`none`). -/
def jsCmp (a b : Value) : Option Ordering :=
  match a, b with
  | vStr x, vStr y => some (compare x y)
  | _, _ =>
      match toNumber a, toNumber b with
      | some x, some y => some (compare x y)
      | _, _ => none

/-- `a < b`. -/
def jsLt (a b : Value) : Bool := jsCmp a b == some .lt
/-- `a > b`. -/
def jsGt (a b : Value) : Bool := jsCmp a b == some .gt
/-- `a <= b`. -/
def jsLe (a b : Value) : Bool := jsCmp a b == some .lt || jsCmp a b == some .eq
/-- `a >= b`. -/
def jsGe (a b : Value) : Bool := jsCmp a b == some .gt || jsCmp a b == some .eq

end Value

open Value

mutual
/-- A structural size for `Value`, used only as the fuel bound for functions
the source defines by unbounded recursion on values: every such recursion
steps into a value of strictly smaller `sizeV`. -/
def sizeV : Value → Nat
  | .vArr es => 1 + sizeVL es
  | .vObj fs => 1 + sizeVF fs
  | _ => 1

def sizeVL : List Value → Nat
  | [] => 0
  | v :: vs => 1 + sizeV v + sizeVL vs

def sizeVF : List (String × Value) → Nat
  | [] => 0
  | (_, v) :: fs => 1 + sizeV v + sizeVF fs
end

/-! ## `Collection.deepEqual`

The deep equality check of `Collection.ts` (lines 336-360): reference/primitive
equality first, then a failure for non-objects and `null`, then key-set
comparison and recursion through every key.  The JavaScript recursion is on
acyclic runtime values; here the recursion depth is bounded by `sizeOf`, so the
wrapper `deepEqual` passes `sizeOf a + sizeOf b + 1` as fuel and the `0` case
is never reached from the wrapper. -/

def deepEqualF : Nat → Value → Value → Bool
  | 0, _, _ => false
  | fuel + 1, obj1, obj2 =>
      if jsStrictEq obj1 obj2 then true
      else if jsTypeof obj1 != "object" || jsTypeof obj2 != "object"
              || jsStrictEq obj1 Value.vNull || jsStrictEq obj2 Value.vNull then false
      else
        let keys1 := jsKeys obj1
        let keys2 := jsKeys obj2
        if keys1.length != keys2.length then false
        else keys1.all (fun key =>
          keys2.contains key && deepEqualF fuel (jsProp obj1 key) (jsProp obj2 key))

/-- `Collection.deepEqual`: recursion depth is below `sizeV a + sizeV b + 1`
because every recursive call descends into a structurally smaller value on at
least one side. -/
def deepEqual (a b : Value) : Bool := deepEqualF (sizeV a + sizeV b + 1) a b

/-! ## The Schema engine (`Schema.ts`)

`SchemaFields` is the declarative type tree `{[field]: SchemaConfig}` of
`Schema.ts`, as a mutual inductive so that `validate` is plain structural
recursion.  A `SchemaConfig` whose nested `schema` is absent is modelled by the
empty `SchemaFields.nil`: validating any value (even `null`) against an empty
schema runs zero iterations and returns SUCCESS, which is observationally the
same as skipping the nested validation. -/

/-- The `Type` union of `types/index.ts`. -/
inductive FieldType where
  | string | number | boolean | object | array | date
deriving DecidableEq, Repr

/-- The name `config.type` holds at runtime. -/
def FieldType.typeName : FieldType → String
  | .string => "string"
  | .number => "number"
  | .boolean => "boolean"
  | .object => "object"
  | .array => "array"
  | .date => "date"

mutual
/-- `SchemaConfig`: `type`, `required`, `unique` (absent modelled `false`),
`items` (element type for arrays) and the nested `schema` for objects
(absent modelled as the empty `SchemaFields.nil`, see above). -/
inductive SchemaConfig where
  | mk (type : FieldType) (required : Bool) (unique : Bool)
       (items : Option FieldType) (schema : SchemaFields)

/-- The ordered field declarations of a schema. -/
inductive SchemaFields where
  | nil
  | cons (name : String) (config : SchemaConfig) (rest : SchemaFields)
end

namespace SchemaConfig

def type : SchemaConfig → FieldType
  | .mk t _ _ _ _ => t

def required : SchemaConfig → Bool
  | .mk _ r _ _ _ => r

def unique : SchemaConfig → Bool
  | .mk _ _ u _ _ => u

def items : SchemaConfig → Option FieldType
  | .mk _ _ _ i _ => i

def schema : SchemaConfig → SchemaFields
  | .mk _ _ _ _ s => s

end SchemaConfig

/-- The validation result `{status, errorMessage}` of `Schema.validate`. -/
inductive VStatus where
  | SUCCESS | ERROR
deriving DecidableEq, Repr

structure ValidationResponse where
  status : VStatus
  errorMessage : String
deriving DecidableEq, Repr

/-- `Schema.extractUniqueFields` / `getUniqueFields`: the names marked
`unique`, in declaration order. -/
def getUniqueFields : SchemaFields → List String
  | .nil => []
  | .cons name cfg rest =>
      if cfg.unique then name :: getUniqueFields rest else getUniqueFields rest

/-- The item check of the `array` branch: the first element whose `typeof` is
not the declared item type fails.  (The source compares `typeof item` with the
`items` type name, so for example `items: "date"` can never be satisfied by a
nonempty array; the translation preserves that.) -/
def checkItems (key : String) (itemType : FieldType) : List Value → Option ValidationResponse
  | [] => none
  | item :: rest =>
      if jsTypeof item != itemType.typeName then
        some ⟨.ERROR, "All items in array " ++ key ++ " should be of type "
                        ++ itemType.typeName ++ "."⟩
      else checkItems key itemType rest

/-- The element list of an array value (the `array` branch of the validator
iterates `value`, which `Array.isArray` has just certified to be an array). -/
def elemsOf : Value → List Value
  | .vArr es => es
  | _ => []

/-- `Schema.validate` (`Schema.ts` lines 49-114), one field declaration at a
time.  The `Except Unit` layer carries the `TypeError` JavaScript throws when a
property is read off `null`/`undefined` (which happens when a nested schema is
validated against `null`, since `typeof null` is `"object"`); an `Except.ok`
carrying status ERROR is the ordinary early `return` of the source. -/
def validateFields : SchemaFields → Value → Except Unit ValidationResponse
  | .nil, _ => .ok ⟨.SUCCESS, ""⟩
  | .cons key (.mk ty required _ items nestedSchema) rest, obj => do
      let value ← jsPropE obj key
      if required && jsStrictEq value Value.vUndef then
        pure ⟨.ERROR, "Property " ++ key ++ " is required."⟩
      else if !jsStrictEq value Value.vUndef then
        match ty with
        | .array =>
            if !isArray value then
              pure ⟨.ERROR, "Property " ++ key ++ " should be an array."⟩
            else
              match items with
              | some itemType =>
                  match checkItems key itemType (elemsOf value) with
                  | some err => pure err
                  | none => validateFields rest obj
              | none => validateFields rest obj
        | .object =>
            if jsTypeof value != "object" || isArray value then
              pure ⟨.ERROR, "Property " ++ key ++ " should be an object."⟩
            else do
              let nested ← validateFields nestedSchema value
              if nested.status == .ERROR then pure nested
              else validateFields rest obj
        | .date =>
            if !isDate value then
              pure ⟨.ERROR, "Property " ++ key ++ " should be of type date."⟩
            else validateFields rest obj
        | other =>
            if jsTypeof value != other.typeName then
              pure ⟨.ERROR, "Property " ++ key ++ " should be of type "
                              ++ other.typeName ++ "."⟩
            else validateFields rest obj
      else validateFields rest obj

/-- Concatenation of schema field declarations (the analogue of `++`,
used to speak about a schema declaring an object field at any position). -/
def sappend : SchemaFields → SchemaFields → SchemaFields
  | .nil, t => t
  | .cons k c r, t => .cons k c (sappend r t)

/-! ## `JSON.stringify`

The platform JSON encoder, as the repository uses it: compact output (no
whitespace), property order preserved, `Date` values rendered through
`toISOString`, `undefined` members skipped.  JavaScript numbers are IEEE
doubles; the embedding restricts them to integers (see `Value`), rendered in
decimal.  The recursion is fuel-structural; `jsonStringify` passes
`sizeV v + 1`, which bounds the recursion depth. -/

/-- The decimal digit character of `n < 10`. -/
def digitChar (n : Nat) : Char := Char.ofNat (48 + n)

/-- Decimal digits of `n`, most significant first, by fuel-structural
division; `fuel ≥ n + 1` always suffices (`n / 10 < n` for `n ≥ 10`). -/
def natCharsF : Nat → Nat → List Char
  | 0, _ => []
  | fuel + 1, n =>
      if n < 10 then [digitChar n]
      else natCharsF fuel (n / 10) ++ [digitChar (n % 10)]

def natChars (n : Nat) : List Char := natCharsF (n + 1) n

/-- Decimal rendering of an integer: optional minus sign, then digits. -/
def intChars : Int → List Char
  | .ofNat m => natChars m
  | .negSucc m => '-' :: natChars (m + 1)

/-- Left-pad with zeros to width `w`. -/
def padZero (w : Nat) (cs : List Char) : List Char :=
  List.replicate (w - cs.length) '0' ++ cs

/-- `Date.prototype.toISOString` on an epoch-milliseconds timestamp
(timestamps at or after the epoch; the civil-date arithmetic is the standard
era/day-of-era decomposition). -/
def isoOfMillis (t : Nat) : List Char :=
  let ms := t % 1000
  let secs := t / 1000
  let sec := secs % 60
  let minute := secs / 60 % 60
  let hour := secs / 3600 % 24
  let days := secs / 86400
  let z := days + 719468
  let era := z / 146097
  let doe := z % 146097
  let yoe := (doe - doe / 1460 + doe / 36524 - doe / 146096) / 365
  let doy := doe - (365 * yoe + yoe / 4 - yoe / 100)
  let mp := (5 * doy + 2) / 153
  let d := doy - (153 * mp + 2) / 5 + 1
  let m := if mp < 10 then mp + 3 else mp - 9
  let y := yoe + era * 400 + (if m ≤ 2 then 1 else 0)
  padZero 4 (natChars y) ++ '-' :: padZero 2 (natChars m) ++ '-' :: padZero 2 (natChars d)
    ++ 'T' :: padZero 2 (natChars hour) ++ ':' :: padZero 2 (natChars minute)
    ++ ':' :: padZero 2 (natChars sec) ++ '.' :: padZero 3 (natChars ms) ++ ['Z']

/-- Lowercase hexadecimal digit character of `n < 16`. -/
def hexDigitChar (n : Nat) : Char :=
  if n < 10 then Char.ofNat (48 + n) else Char.ofNat (87 + n)

/-- One string character, escaped as `JSON.stringify` escapes it: quote and
backslash, the five named control escapes, `\u00XX` for the remaining control
characters, everything else literal. -/
def escapeChar (c : Char) : List Char :=
  if c = '"' then ['\\', '"']
  else if c = '\\' then ['\\', '\\']
  else if c = Char.ofNat 8 then ['\\', 'b']
  else if c = Char.ofNat 9 then ['\\', 't']
  else if c = Char.ofNat 10 then ['\\', 'n']
  else if c = Char.ofNat 12 then ['\\', 'f']
  else if c = Char.ofNat 13 then ['\\', 'r']
  else if c.toNat < 32 then
    ['\\', 'u', '0', '0', hexDigitChar (c.toNat / 16), hexDigitChar (c.toNat % 16)]
  else [c]

/-- A JSON string literal: quoted, with every character escaped. -/
def quoteChars (s : String) : List Char :=
  '"' :: (s.data.map escapeChar).flatten ++ ['"']

mutual
/-- `JSON.stringify`, fuel-structural (see section comment). -/
def strValF : Nat → Value → List Char
  | 0, _ => []
  | fuel + 1, v =>
      match v with
      | .vNull => "null".data
      | .vBool true => "true".data
      | .vBool false => "false".data
      | .vNum n => intChars n
      | .vStr s => quoteChars s
      | .vDate t => '"' :: isoOfMillis t ++ ['"']
      | .vUndef => "null".data
      | .vArr [] => "[]".data
      | .vArr (e :: es) => '[' :: (strValF fuel e ++ strArrRestF fuel es)
      | .vObj fs =>
          match fs.filter (fun p => !jsStrictEq p.2 Value.vUndef) with
          | [] => "{}".data
          | m :: ms => '{' :: (quoteChars m.1 ++ ':' :: strValF fuel m.2 ++ strObjRestF fuel ms)

/-- The remaining elements of an array: `,element` repeated, then `]`. -/
def strArrRestF : Nat → List Value → List Char
  | 0, _ => []
  | fuel + 1, [] => [']']
  | fuel + 1, e :: es => ',' :: (strValF fuel e ++ strArrRestF fuel es)

/-- The remaining members of an object: `,"key":value` repeated, then the
closing brace. -/
def strObjRestF : Nat → List (String × Value) → List Char
  | 0, _ => []
  | fuel + 1, [] => ['}']
  | fuel + 1, m :: ms => ',' :: (quoteChars m.1 ++ ':' :: strValF fuel m.2 ++ strObjRestF fuel ms)
end

/-- `JSON.stringify` as a function on strings (`sizeV v + 1` fuel always
suffices: every recursive call steps past one constructor or list cell). -/
def jsonStringify (v : Value) : String := String.mk (strValF (sizeV v + 1) v)

/-! ## Query matching (`Collection.ts` lines 400-520) -/

/-- The recognised operator keys of `isQueryOperator`, including the
undocumented `where`. -/
def operatorKeys : List String :=
  ["$gt", "$lt", "$gte", "$lte", "$eq", "$ne", "$in", "$nin", "where"]

/-- `Collection.isQueryOperator`: some own key of the object is an operator
key. -/
def isQueryOperator (obj : Value) : Bool :=
  (jsKeys obj).any (fun key => operatorKeys.contains key)

/-- `Object.keys` with the `TypeError` on `null`/`undefined` made explicit. -/
def jsKeysE (v : Value) : Except Unit (List String) :=
  match v with
  | .vNull => .error ()
  | .vUndef => .error ()
  | _ => .ok (jsKeys v)

/-- `isQueryOperator` reads `Object.keys(obj)`, so a `null`/`undefined`
argument throws. -/
def isQueryOperatorE (obj : Value) : Except Unit Bool := do
  let ks ← jsKeysE obj
  pure (ks.any (fun key => operatorKeys.contains key))

/-- `Collection.isInArray`: an array-valued field matches when any of its
elements is in the operator sequence, any other value by direct membership.
`Array.includes` compares with SameValueZero, i.e. `jsStrictEq` on the
modelled values.  A non-array operator operand makes `.includes` throw in
JavaScript; no modelled theorem evaluates that case, and it is rendered as a
non-match. -/
def isInArray (itemValue arrayOperand : Value) : Bool :=
  let xs := match arrayOperand with | .vArr es => es | _ => []
  match itemValue with
  | .vArr vs => vs.any (fun val => xs.any (fun x => jsStrictEq x val))
  | _ => xs.any (fun x => jsStrictEq x itemValue)

/-- `Collection.applyQueryOperator` (lines 427-481), translated check for
check: each entry of `checks` is the `[check, negate]` pair the source builds,
and the result is `checks.every(([check, negate]) => !negate || !check)`. -/
def applyQueryOperator (itemValue : Value) (queryOperator : Value) : Bool :=
  let get := fun k => jsProp queryOperator k
  let checks : List (Bool × Bool) := [
    (!jsStrictEq (get "$gt") .vUndef && !jsStrictEq (get "$gt") .vNull
       && !(jsGt itemValue (get "$gt")), true),
    (!jsStrictEq (get "$lt") .vUndef && !jsStrictEq (get "$lt") .vNull
       && !(jsLt itemValue (get "$lt")), true),
    (!jsStrictEq (get "$gte") .vUndef && !jsStrictEq (get "$gte") .vNull
       && !(jsGe itemValue (get "$gte")), true),
    (!jsStrictEq (get "$lte") .vUndef && !jsStrictEq (get "$lte") .vNull
       && !(jsLe itemValue (get "$lte")), true),
    (!jsStrictEq (get "$eq") .vUndef && !jsStrictEq itemValue (get "$eq"), false),
    (!jsStrictEq (get "$ne") .vUndef && jsStrictEq itemValue (get "$ne"), false),
    (!jsStrictEq (get "$in") .vUndef && !isInArray itemValue (get "$in"), true),
    (!jsStrictEq (get "$nin") .vUndef && isInArray itemValue (get "$nin"), false),
    (!jsStrictEq (get "where") .vUndef && !(jsStrictEq itemValue (get "where")), true)
  ]
  checks.all (fun c => !c.2 || !c.1)

/-- `Collection.matchesQuery`, fuel-structural (the recursion into a nested
query steps into a strictly `sizeV`-smaller query value, so the wrapper fuel
`sizeV query + 1` never runs out).  The `Except Unit` layer carries the
`TypeError` thrown by property reads on `null`/`undefined` and by
`Object.keys` on a `null` query value. -/
def matchesQueryF : Nat → Value → Value → Except Unit Bool
  | 0, _, _ => .error ()
  | fuel + 1, item, query => do
      let ks ← jsKeysE query
      ks.allM (fun key => do
        let queryValue := jsProp query key
        let itemValue ← jsPropE item key
        let isOp ← isQueryOperatorE queryValue
        if isOp then
          pure (applyQueryOperator itemValue queryValue)
        else if jsTypeof queryValue == "object" && !jsStrictEq queryValue .vNull then
          matchesQueryF fuel itemValue queryValue
        else
          pure (jsStrictEq itemValue queryValue))

def matchesQuery (item query : Value) : Except Unit Bool :=
  matchesQueryF (sizeV query + 1) item query

/-! ## The Collection engine (`Collection.ts`)

A persisted collection is the ordered list of its documents; a document is an
association list with unique keys (a JavaScript object).  Every mutating
operation below returns, in `Except`, the document list that
`writeCollectionData` persists — `Option (List Doc)` for the update path,
where `none` records that the no-op optimization skipped the write.  An
`Except.error` result models a thrown `Error`: the operation aborts before
`writeCollectionData`, so nothing is written and the persisted file is
unchanged.

Nondeterministic inputs are passed explicitly: `generateId` results as the
`genIds` argument (one fresh id per inserted document) and `new Date()` as
the `now` timestamp (the `createdAt`/`updatedAt` of one call observe the same
tick). -/

abbrev Doc := List (String × Value)

/-- JavaScript string interpolation `String(v)` for the template literal in
the duplicate-key message.  `Date` values print in locale form in JavaScript,
modelled here by the ISO timestamp (no modelled claim interpolates a `Date`);
arrays join their elements with commas. -/
def jsToStringF : Nat → Value → String
  | 0, _ => ""
  | fuel + 1, v =>
      match v with
      | .vUndef => "undefined"
      | .vNull => "null"
      | .vBool b => if b then "true" else "false"
      | .vNum n => toString n
      | .vStr s => s
      | .vDate t => String.mk (isoOfMillis t)
      | .vArr es => String.intercalate "," (es.map (fun e => jsToStringF fuel e))
      | .vObj _ => "[object Object]"

def jsToString (v : Value) : String := jsToStringF (sizeV v + 1) v

/-- The `E11000` duplicate-key error message built by `insertDocuments` and
`updateDocument`, naming the collection, the field and the offending value. -/
def dupKeyMsg (collectionName field : String) (v : Value) : String :=
  "E11000 duplicate key error collection: " ++ collectionName ++ " index: "
    ++ field ++ "_1 dup key: \x7b " ++ field ++ ": \"" ++ jsToString v ++ "\" \x7d"

/-- JavaScript object update `obj[k] = v`, also the effect of a later entry in
an object literal spread: an existing key keeps its position and changes its
value, a new key is appended. -/
def objSet : Doc → String → Value → Doc
  | [], k, v => [(k, v)]
  | (k0, v0) :: rest, k, v =>
      if k0 == k then (k0, v) :: rest else (k0, v0) :: objSet rest k v

/-- The object spread `{...base, ...extra}` (applied to `base`): every own
key of `extra`, in order, overwrites or appends. -/
def spreadMerge (base extra : Doc) : Doc :=
  extra.foldl (fun acc p => objSet acc p.1 p.2) base

/-- `Collection.createNewDoc`: the object literal
`{_id: generateId(), ...doc, createdAt: new Date(), updatedAt: new Date()}`.
The spread of `doc` comes after the generated `_id`, so a caller-supplied
`_id` overwrites it; `createdAt`/`updatedAt` come after the spread, so the
engine always owns them. -/
def createNewDoc (genId : String) (now : Nat) (doc : Doc) : Doc :=
  objSet (objSet (spreadMerge [("_id", .vStr genId)] doc) "createdAt" (.vDate now))
    "updatedAt" (.vDate now)

/-- `Collection.validateDocument`: throws `Error(errorMessage)` when the
schema answers ERROR; a `TypeError` escaping `validate` propagates as well. -/
def validateDocument (schema : SchemaFields) (doc : Doc) : Except String Unit :=
  match validateFields schema (.vObj doc) with
  | .error () => .error "TypeError: cannot read properties of null"
  | .ok r => if r.status == .ERROR then .error r.errorMessage else .ok ()

/-- Membership in one of the `Set`s of unique-field values: `Set.has` uses
SameValueZero, `jsStrictEq` on the modelled values. -/
def setHas (s : List Value) (v : Value) : Bool := s.any (fun x => jsStrictEq x v)

/-- `Collection.populateUniqueFieldValues` (lines 133-152): one set per unique
field, holding every defined value of that field in the existing collection.
The `Map` of `Set`s is modelled as an association list of value lists
(membership via `setHas`). -/
def populateUniqueFieldValues (uniqueFields : List String) (collection : List Doc) :
    List (String × List Value) :=
  uniqueFields.map (fun field =>
    (field, collection.filterMap (fun item =>
      let v := jsProp (.vObj item) field
      if jsStrictEq v .vUndef then none else some v)))

/-- `uniqueFieldValues.get(field)!` on the modelled map. -/
def lookupSet (m : List (String × List Value)) (f : String) : List Value :=
  ((m.find? (fun p => p.1 == f)).map (fun p => p.2)).getD []

/-- `Collection.insertDocuments` (lines 91-124): validate every document,
index the unique-field values of the *existing* collection, reject the first
new document holding an already-present value in a unique field, then append
`createNewDoc` of every input and persist the concatenation.  Note the
duplicate check consults only the pre-existing collection, never the other
documents of the same batch. -/
def insertDocuments (collectionName : String) (schema : SchemaFields)
    (collection : List Doc) (docs : List Doc) (genIds : List String) (now : Nat) :
    Except String (List Doc) := do
  (docs.foldlM (fun _ doc => validateDocument schema doc) () : Except String Unit)
  let uniqueFields := getUniqueFields schema
  let uniqueFieldValues := populateUniqueFieldValues uniqueFields collection
  (docs.foldlM (fun _ doc =>
    uniqueFields.foldlM (fun _ field =>
      if !jsStrictEq (jsProp (.vObj doc) field) .vUndef
          && setHas (lookupSet uniqueFieldValues field) (jsProp (.vObj doc) field) then
        Except.error (dupKeyMsg collectionName field (jsProp (.vObj doc) field))
      else Except.ok ()) ()) () : Except String Unit)
  let newDocs := (docs.zip genIds).map (fun p => createNewDoc p.2 now p.1)
  pure (collection ++ newDocs)

/-- `Collection.insertOne`. -/
def insertOne (collectionName : String) (schema : SchemaFields)
    (collection : List Doc) (doc : Doc) (genId : String) (now : Nat) :
    Except String (List Doc) :=
  insertDocuments collectionName schema collection [doc] [genId] now

/-- `Collection.insertMany`. -/
def insertMany (collectionName : String) (schema : SchemaFields)
    (collection : List Doc) (docs : List Doc) (genIds : List String) (now : Nat) :
    Except String (List Doc) :=
  insertDocuments collectionName schema collection docs genIds now

/-- The merged document `{...docToUpdate, ...update, updatedAt: new Date()}`
of `updateDocument`. -/
def mergeDoc (docToUpdate update : Doc) (now : Nat) : Doc :=
  objSet (spreadMerge docToUpdate update) "updatedAt" (.vDate now)

/-- `Collection.updateDocument` (lines 283-327): merge, validate, check the
unique fields (skipping any whose new value is in the set of the old
document's values across *all* unique fields), then either skip the write
(`none`, when the merged document is `deepEqual` to the original) or replace
in place and persist (`some`). -/
def updateDocument (collectionName : String) (schema : SchemaFields)
    (docs : List Doc) (docIndex : Nat) (update : Doc) (now : Nat) :
    Except String (Option (List Doc)) := do
  let docToUpdate := docs.getD docIndex []
  let updatedDoc := mergeDoc docToUpdate update now
  validateDocument schema updatedDoc
  let uniqueFields := getUniqueFields schema
  let uniqueFieldValues := uniqueFields.map (fun field => jsProp (.vObj docToUpdate) field)
  (uniqueFields.foldlM (fun _ field =>
    let newV := jsProp (.vObj updatedDoc) field
    if !jsStrictEq newV .vUndef && !setHas uniqueFieldValues newV then
      if docs.enum.any (fun p =>
          p.1 != docIndex && jsStrictEq (jsProp (.vObj p.2) field) newV) then
        Except.error (dupKeyMsg collectionName field newV)
      else Except.ok ()
    else Except.ok ()) () : Except String Unit)
  if deepEqual (.vObj docToUpdate) (.vObj updatedDoc) then pure none
  else pure (some (docs.set docIndex updatedDoc))

/-- `Collection.updateById` (lines 261-273). -/
def updateById (collectionName : String) (schema : SchemaFields)
    (docs : List Doc) (_id : String) (update : Doc) (now : Nat) :
    Except String (Option (List Doc)) :=
  match docs.findIdx? (fun doc => jsStrictEq (jsProp (.vObj doc) "_id") (.vStr _id)) with
  | none => .error ("No document matches the ID: " ++ _id)
  | some docIndex => updateDocument collectionName schema docs docIndex update now

/-- `docs.findIndex(item => matchesQuery(item, query))`, with a possible
`TypeError` from the predicate. -/
def findIndexMatching : List Doc → Value → Nat → Except Unit (Option Nat)
  | [], _, _ => .ok none
  | d :: rest, query, i => do
      let b ← matchesQuery (.vObj d) query
      if b then pure (some i) else findIndexMatching rest query (i + 1)

/-- `Collection.updateOne` (lines 238-252). -/
def updateOne (collectionName : String) (schema : SchemaFields)
    (docs : List Doc) (query : Value) (update : Doc) (now : Nat) :
    Except String (Option (List Doc)) :=
  match findIndexMatching docs query 0 with
  | .error () => .error "TypeError: cannot read properties of null"
  | .ok none => .error ("No document matches the query: " ++ jsonStringify query)
  | .ok (some docIndex) => updateDocument collectionName schema docs docIndex update now

/-- `Collection.deleteOne` (lines 206-214): the source removes the found
instance by filtering on reference inequality; deserialized documents are
pairwise-distinct references, so exactly the found occurrence is removed,
i.e. `eraseIdx` at the found index. -/
def deleteOne (docs : List Doc) (query : Value) : Except String (List Doc) :=
  match findIndexMatching docs query 0 with
  | .error () => .error "TypeError: cannot read properties of null"
  | .ok none => .error "No document matches the query"
  | .ok (some i) => .ok (docs.eraseIdx i)

/-- `Collection.deleteById` (lines 222-230), same removal keyed on `_id`. -/
def deleteById (docs : List Doc) (_id : String) : Except String (List Doc) :=
  match docs.findIdx? (fun doc => jsStrictEq (jsProp (.vObj doc) "_id") (.vStr _id)) with
  | none => .error "No document matches the ID"
  | some i => .ok (docs.eraseIdx i)

/-- `Collection.findById` (lines 195-198). -/
def findById (docs : List Doc) (_id : String) : Option Doc :=
  docs.find? (fun doc => jsStrictEq (jsProp (.vObj doc) "_id") (.vStr _id))

/-! ## `JSON.parse`

The platform JSON decoder on the whitespace-free fragment, which covers
everything `JSON.stringify` emits (the claims under verification only compose
the decoder with the encoder).  Restrictions inherited from the `Value`
model: numbers are integer literals (no fraction/exponent), and an object
with duplicate keys parses to the written pairs (real `JSON.parse` keeps the
last; the round-trip theorem restricts to unique keys, where both agree).
The recursion is fuel-structural; one character is consumed before every
recursive call, so `length + 1` fuel suffices. -/

/-- The numeric value of a hexadecimal digit character. -/
def hexVal (c : Char) : Option Nat :=
  if 48 ≤ c.toNat && c.toNat ≤ 57 then some (c.toNat - 48)
  else if 97 ≤ c.toNat && c.toNat ≤ 102 then some (c.toNat - 87)
  else if 65 ≤ c.toNat && c.toNat ≤ 70 then some (c.toNat - 55)
  else none

/-- The single-character JSON escapes. -/
def unescapeChar : Char → Option Char
  | '"' => some '"'
  | '\\' => some '\\'
  | '/' => some '/'
  | 'b' => some (Char.ofNat 8)
  | 't' => some (Char.ofNat 9)
  | 'n' => some (Char.ofNat 10)
  | 'f' => some (Char.ofNat 12)
  | 'r' => some (Char.ofNat 13)
  | _ => none

/-- Parse one escape sequence after the backslash: the decoded character and
the remaining input. -/
def parseJEscape : List Char → Option (Char × List Char)
  | 'u' :: h1 :: h2 :: h3 :: h4 :: rest2 => do
      let a ← hexVal h1
      let b ← hexVal h2
      let c2 ← hexVal h3
      let d ← hexVal h4
      pure (Char.ofNat (((a * 16 + b) * 16 + c2) * 16 + d), rest2)
  | e :: rest2 => do
      let ch ← unescapeChar e
      pure (ch, rest2)
  | [] => none

/-- Parse a string body after the opening quote, up to and past the closing
quote.  Fuel-structural; one source character is decoded per unit of fuel, so
the fuel the callers pass (which exceeds the remaining input length) always
suffices. -/
def parseJStrBody : Nat → List Char → Option (List Char × List Char)
  | 0, _ => none
  | fuel + 1, cs =>
      match cs with
      | [] => none
      | c :: rest =>
          if c = '"' then some ([], rest)
          else if c = '\\' then
            match parseJEscape rest with
            | some (ch, rest2) =>
                match parseJStrBody fuel rest2 with
                | some (cs2, r) => some (ch :: cs2, r)
                | none => none
            | none => none
          else
            match parseJStrBody fuel rest with
            | some (cs2, r) => some (c :: cs2, r)
            | none => none

/-- The longest leading run of decimal digits. -/
def takeDigits : List Char → List Char × List Char
  | [] => ([], [])
  | c :: cs =>
      if c.isDigit then
        let (ds, r) := takeDigits cs
        (c :: ds, r)
      else ([], c :: cs)

/-- The numeric value of a digit run. -/
def digitsVal (ds : List Char) : Nat :=
  ds.foldl (fun acc c => acc * 10 + (c.toNat - 48)) 0

/-- Parse an integer literal (the only numbers the integer-valued encoder
emits). -/
def parseJNumber (cs : List Char) : Option (Value × List Char) :=
  match cs with
  | [] => none
  | c :: rest =>
      if c = '-' then
        let (ds, r) := takeDigits rest
        if ds.isEmpty then none else some (.vNum (-(digitsVal ds : Int)), r)
      else
        let (ds, r) := takeDigits (c :: rest)
        if ds.isEmpty then none else some (.vNum ((digitsVal ds : Int)), r)

mutual
/-- Parse one JSON value. -/
def parseJVal : Nat → List Char → Option (Value × List Char)
  | 0, _ => none
  | fuel + 1, cs =>
      match cs with
      | 'n' :: 'u' :: 'l' :: 'l' :: rest => some (.vNull, rest)
      | 't' :: 'r' :: 'u' :: 'e' :: rest => some (.vBool true, rest)
      | 'f' :: 'a' :: 'l' :: 's' :: 'e' :: rest => some (.vBool false, rest)
      | '"' :: rest => do
          let (scs, r) ← parseJStrBody fuel rest
          pure (.vStr (String.mk scs), r)
      | '[' :: ']' :: rest => some (.vArr [], rest)
      | '[' :: rest => do
          let (v, r) ← parseJVal fuel rest
          let (vs, r2) ← parseJArrRest fuel r
          pure (.vArr (v :: vs), r2)
      | '{' :: '}' :: rest => some (.vObj [], rest)
      | '{' :: '"' :: rest => do
          let (kcs, r1) ← parseJStrBody fuel rest
          match r1 with
          | ':' :: r2 => do
              let (v, r3) ← parseJVal fuel r2
              let (ms, r4) ← parseJObjRest fuel r3
              pure (.vObj ((String.mk kcs, v) :: ms), r4)
          | _ => none
      | c :: _ => if c = '-' || c.isDigit then parseJNumber cs else none
      | [] => none

/-- After one array element: `,element` repeated until `]`. -/
def parseJArrRest : Nat → List Char → Option (List Value × List Char)
  | 0, _ => none
  | fuel + 1, cs =>
      match cs with
      | ']' :: rest => some ([], rest)
      | ',' :: rest => do
          let (v, r) ← parseJVal fuel rest
          let (vs, r2) ← parseJArrRest fuel r
          pure (v :: vs, r2)
      | _ => none

/-- After one object member: `,"key":value` repeated until the closing
brace. -/
def parseJObjRest : Nat → List Char → Option (List (String × Value) × List Char)
  | 0, _ => none
  | fuel + 1, cs =>
      match cs with
      | '}' :: rest => some ([], rest)
      | ',' :: '"' :: rest => do
          let (kcs, r1) ← parseJStrBody fuel rest
          match r1 with
          | ':' :: r2 => do
              let (v, r3) ← parseJVal fuel r2
              let (ms, r4) ← parseJObjRest fuel r3
              pure ((String.mk kcs, v) :: ms, r4)
          | _ => none
      | _ => none
end

/-- `JSON.parse`: a full document, rejecting trailing characters. -/
def jsonParse (cs : List Char) : Option Value :=
  match parseJVal (cs.length + 1) cs with
  | some (v, []) => some v
  | _ => none

/-- A remainder that cannot extend a just-parsed number: empty, or starting
with a non-digit.  Every continuation the encoder emits after a value (a
separator, a closing bracket, or the end of input) satisfies this. -/
def numBoundary : List Char → Bool
  | [] => true
  | c :: _ => !c.isDigit

/-! ## The cryptographic boundary (`dataCryptography.ts`)

Byte strings are lists of naturals below 256.  The platform primitives
`scryptSync` and the AES-256-CTR keystream are deterministic functions of
their inputs; their exact values are irrelevant to every claim under
verification (the round-trip law needs only determinism, the XOR structure of
CTR mode, and bytes staying below 256), so they are modelled by concrete
deterministic stand-ins with those properties. -/

/-- Models `scryptSync(secretKey, "salt", 32)`: a deterministic 32-byte key
derived from the secret key string. -/
def scryptKey (secretKey : List Char) : List Nat :=
  (List.range 32).map (fun i =>
    (secretKey.foldl (fun acc c => (acc * 31 + c.toNat) % 65536) 7 + 131 * i) % 256)

/-- Models the AES-256-CTR keystream of `(key, iv)`, one byte per input
byte: a deterministic byte stream, independent of the data. -/
def ctrKeystream (key iv : List Nat) (n : Nat) : List Nat :=
  let seed := key.foldl (fun a b => (a * 33 + b) % 65536) 5
      + iv.foldl (fun a b => (a * 29 + b) % 65536) 11
  (List.range n).map (fun i => (seed + 97 * i) % 256)

/-- CTR-mode encryption and decryption: XOR the data with the keystream. -/
def xorBytes (data ks : List Nat) : List Nat :=
  data.zipWith (fun a b => a ^^^ b) ks

/-- Hexadecimal rendering of one byte (`Buffer.toString("hex")`,
lowercase). -/
def hexPair (b : Nat) : List Char := [hexDigitChar (b / 16), hexDigitChar (b % 16)]

def hexEncode (bs : List Nat) : List Char := (bs.map hexPair).flatten

/-- `Buffer.from(hex, "hex")`. -/
def hexDecode : List Char → Option (List Nat)
  | [] => some []
  | h :: l :: rest => do
      let a ← hexVal h
      let b ← hexVal l
      let bs ← hexDecode rest
      pure ((a * 16 + b) :: bs)
  | _ => none

/-- UTF-8 bytes of one code point (`cipher.update(data)` consumes the UTF-8
bytes of the JavaScript string). -/
def utf8EncodeChar (c : Nat) : List Nat :=
  if c < 128 then [c]
  else if c < 2048 then [192 + c / 64, 128 + c % 64]
  else if c < 65536 then [224 + c / 4096, 128 + c / 64 % 64, 128 + c % 64]
  else [240 + c / 262144, 128 + c / 4096 % 64, 128 + c / 64 % 64, 128 + c % 64]

def utf8Encode (cs : List Char) : List Nat :=
  (cs.map (fun c => utf8EncodeChar c.toNat)).flatten

/-- A UTF-8 continuation byte. -/
def isCont (b : Nat) : Bool := 128 ≤ b && b < 192

/-- Decode one UTF-8 sequence beginning with a two-byte lead. -/
def utf8Cont1 (b : Nat) : List Nat → Option (Char × List Nat)
  | b1 :: rest2 =>
      if isCont b1 then some (Char.ofNat ((b - 192) * 64 + (b1 - 128)), rest2) else none
  | [] => none

/-- Decode one UTF-8 sequence beginning with a three-byte lead. -/
def utf8Cont2 (b : Nat) : List Nat → Option (Char × List Nat)
  | b1 :: b2 :: rest2 =>
      if isCont b1 && isCont b2 then
        some (Char.ofNat (((b - 224) * 64 + (b1 - 128)) * 64 + (b2 - 128)), rest2)
      else none
  | _ => none

/-- Decode one UTF-8 sequence beginning with a four-byte lead. -/
def utf8Cont3 (b : Nat) : List Nat → Option (Char × List Nat)
  | b1 :: b2 :: b3 :: rest2 =>
      if isCont b1 && isCont b2 && isCont b3 then
        some (Char.ofNat ((((b - 240) * 64 + (b1 - 128)) * 64 + (b2 - 128)) * 64
          + (b3 - 128)), rest2)
      else none
  | _ => none

/-- Decode the first UTF-8 sequence of a byte string: the decoded character
and the remaining bytes. -/
def utf8DecodeOne : List Nat → Option (Char × List Nat)
  | [] => none
  | b :: rest =>
      if b < 128 then some (Char.ofNat b, rest)
      else if b < 192 then none
      else if b < 224 then utf8Cont1 b rest
      else if b < 240 then utf8Cont2 b rest
      else utf8Cont3 b rest

/-- The decoding loop, fuel-structural: each step consumes at least one byte,
so fuel `length + 1` suffices. -/
def utf8DecodeGo : Nat → List Nat → Option (List Char)
  | 0, _ => none
  | fuel + 1, bs =>
      if bs.isEmpty then some []
      else do
        let (c, rest) ← utf8DecodeOne bs
        let cs ← utf8DecodeGo fuel rest
        pure (c :: cs)

/-- UTF-8 decoding (`Buffer.toString()`). -/
def utf8Decode (bs : List Nat) : Option (List Char) :=
  utf8DecodeGo (bs.length + 1) bs

/-- `dataCryptography.encrypt` (lines 27-33): derive the key, encrypt the
UTF-8 bytes of the data under the keystream of the supplied IV (the source
draws the IV from `randomBytes(16)`; it is passed explicitly here), and
frame the result as `ivHex:ciphertextHex`. -/
def encrypt (data : List Char) (secretKey : List Char) (iv : List Nat) : List Char :=
  let key := scryptKey secretKey
  let bytes := utf8Encode data
  let encrypted := xorBytes bytes (ctrKeystream key iv bytes.length)
  hexEncode iv ++ ':' :: hexEncode encrypted

/-- `dataCryptography.decrypt` (lines 51-62): split the frame on `:`, decode
both halves from hex, rebuild the keystream from the derived key and the
recovered IV, XOR, and decode the UTF-8 bytes.  `none` models the thrown
cryptographic errors (malformed framing or hex). -/
def decrypt (encryptedData : List Char) (secretKey : List Char) : Option (List Char) :=
  let ivHex := encryptedData.takeWhile (fun c => c ≠ ':')
  match encryptedData.dropWhile (fun c => c ≠ ':') with
  | ':' :: afterColon =>
      let encryptedHex := afterColon.takeWhile (fun c => c ≠ ':')
      do
        let iv ← hexDecode ivHex
        let ct ← hexDecode encryptedHex
        utf8Decode (xorBytes ct (ctrKeystream (scryptKey secretKey) iv ct.length))
  | _ => none

/-! ## The reference adapter (`secureJSON.adapter.ts`) -/

/-- The secret key the adapter derives when both credentials are present:
`username + "PYOJAN" + password`. -/
def secretKeyOf (username password : String) : List Char :=
  (username ++ "PYOJAN" ++ password).data

/-- `JsonAdapter.serialize` (lines 37-50): reject non-objects, JSON-encode,
and encrypt when a secret key is configured.  The fresh random IV of the
encrypting path is an explicit argument. -/
def serialize (secretKey : Option (List Char)) (iv : List Nat) (data : Value) :
    Except String (List Char) :=
  if jsTypeof data != "object" || jsStrictEq data .vNull then
    .error "Invalid data type for serialization."
  else
    let serializeData := (jsonStringify data).data
    match secretKey with
    | none => .ok serializeData
    | some key => .ok (encrypt serializeData key iv)

/-- `JsonAdapter.deserialize` (lines 65-78): decrypt when a secret key is
configured, then JSON-decode. -/
def deserialize (secretKey : Option (List Char)) (data : List Char) :
    Except String Value :=
  match secretKey with
  | none =>
      match jsonParse data with
      | some v => .ok v
      | none => .error "JSON.parse: unexpected token"
  | some key =>
      match decrypt data key with
      | none => .error "Failed to deserialize data in JSONAdapter"
      | some plain =>
          match jsonParse plain with
          | some v => .ok v
          | none => .error "JSON.parse: unexpected token"

/-- The JSON-representable values: no `Date` (it serializes to its ISO string
and deserializes as a plain string), no `undefined`, and object keys pairwise
distinct (a JavaScript object cannot hold two own properties of the same
name).  On this fragment `deserialize` inverts `serialize`. -/
inductive JsonSafe : Value → Prop where
  | null : JsonSafe .vNull
  | bool (b : Bool) : JsonSafe (.vBool b)
  | num (n : Int) : JsonSafe (.vNum n)
  | str (s : String) : JsonSafe (.vStr s)
  | arr (es : List Value) (h : ∀ e ∈ es, JsonSafe e) : JsonSafe (.vArr es)
  | obj (fs : List (String × Value)) (h : ∀ p ∈ fs, JsonSafe p.2)
      (hk : (fs.map Prod.fst).Nodup) : JsonSafe (.vObj fs)

/-! ## Object-lookup lemmas -/

/-- Reading the key just written by `objSet` gives the written value. -/
theorem jsProp_objSet_self (fs : Doc) (k : String) (v : Value) :
    jsProp (.vObj (objSet fs k v)) k = v := by
  induction fs with
  | nil => simp [objSet, jsProp]
  | cons p rest ih =>
      obtain ⟨k0, v0⟩ := p
      by_cases h : k0 = k
      · simp [objSet, h, jsProp]
      · simpa [objSet, h, jsProp, List.find?] using ih

/-- `objSet` leaves every other key unchanged. -/
theorem jsProp_objSet_other (fs : Doc) (k : String) (v : Value) (k' : String)
    (h : k' ≠ k) : jsProp (.vObj (objSet fs k v)) k' = jsProp (.vObj fs) k' := by
  have hkk : (k == k') = false := beq_eq_false_iff_ne.mpr (Ne.symm h)
  induction fs with
  | nil => simp [objSet, jsProp, List.find?, hkk]
  | cons p rest ih =>
      obtain ⟨k0, v0⟩ := p
      by_cases hk : k0 = k
      · subst hk
        simp [objSet, jsProp, List.find?, hkk]
      · have hbk : (k0 == k) = false := beq_eq_false_iff_ne.mpr hk
        by_cases hk' : k0 = k'
        · subst hk'
          simp [objSet, hbk, jsProp, List.find?]
        · have hbk' : (k0 == k') = false := beq_eq_false_iff_ne.mpr hk'
          simpa [objSet, hbk, hbk', jsProp, List.find?] using ih

/-- Spreading `extra` over `base` does not touch keys absent from `extra`. -/
theorem jsProp_spreadMerge_not_mem (base extra : Doc) (k : String)
    (h : k ∉ extra.map Prod.fst) :
    jsProp (.vObj (spreadMerge base extra)) k = jsProp (.vObj base) k := by
  induction extra generalizing base with
  | nil => simp [spreadMerge]
  | cons p rest ih =>
      simp only [List.map_cons, List.mem_cons, not_or] at h
      have step : spreadMerge base (p :: rest) = spreadMerge (objSet base p.1 p.2) rest := rfl
      rw [step, ih _ h.2, jsProp_objSet_other _ _ _ _ h.1]

set_option maxRecDepth 100000

/-! ## Lemmas on the cryptographic boundary -/

/-- Hexadecimal digit characters decode back to their value. -/
theorem hexVal_hexDigitChar (d : Nat) (h : d < 16) :
    hexVal (hexDigitChar d) = some d := by
  interval_cases d <;> decide

/-- Hexadecimal digit characters are never the frame separator. -/
theorem hexDigitChar_ne_colon (d : Nat) (h : d < 16) :
    (hexDigitChar d ≠ ':') = True := by
  interval_cases d <;> decide

/-- Hex decoding inverts hex encoding on byte strings. -/
theorem hexDecode_hexEncode : ∀ (bs : List Nat), (∀ b ∈ bs, b < 256) →
    hexDecode (hexEncode bs) = some bs := by
  intro bs
  induction bs with
  | nil => intro _; rfl
  | cons b rest ih =>
      intro h
      have hb := h b (List.mem_cons_self b rest)
      have h16a : b / 16 < 16 := by omega
      have h16b : b % 16 < 16 := by omega
      have step : hexEncode (b :: rest)
          = hexDigitChar (b / 16) :: hexDigitChar (b % 16) :: hexEncode rest := rfl
      rw [step]
      simp only [hexDecode, hexVal_hexDigitChar _ h16a, hexVal_hexDigitChar _ h16b,
        ih (fun x hx => h x (List.mem_cons_of_mem _ hx)), Option.bind_eq_bind]
      simp only [Option.some_bind]
      have : b / 16 * 16 + b % 16 = b := by omega
      rw [this]
      rfl

/-- Every character of a hex encoding differs from the separator. -/
theorem hexEncode_ne_colon (bs : List Nat) (h : ∀ b ∈ bs, b < 256) :
    ∀ c ∈ hexEncode bs, (fun c => decide (c ≠ ':')) c = true := by
  induction bs with
  | nil => intro c hc; cases hc
  | cons b rest ih =>
      intro c hc
      have hb := h b (List.mem_cons_self b rest)
      have step : hexEncode (b :: rest)
          = hexDigitChar (b / 16) :: hexDigitChar (b % 16) :: hexEncode rest := rfl
      rw [step] at hc
      rcases List.mem_cons.mp hc with rfl | hc'
      · have : hexDigitChar (b / 16) ≠ ':' := by
          have := hexDigitChar_ne_colon (b / 16) (by omega)
          simpa using this
        simpa using this
      · rcases List.mem_cons.mp hc' with rfl | hc''
        · have : hexDigitChar (b % 16) ≠ ':' := by
            have := hexDigitChar_ne_colon (b % 16) (by omega)
            simpa using this
          simpa using this
        · exact ih (fun x hx => h x (List.mem_cons_of_mem _ hx)) c hc''

/-- `takeWhile`/`dropWhile` split a frame `good ++ separator :: tail` at the
separator. -/
theorem takeWhile_frame_split {α : Type} (p : α → Bool) :
    ∀ (a : List α) (x : α) (b : List α), (∀ c ∈ a, p c = true) → p x = false →
      (a ++ x :: b).takeWhile p = a ∧ (a ++ x :: b).dropWhile p = x :: b := by
  intro a
  induction a with
  | nil =>
      intro x b _ hx
      constructor
      · simp [List.takeWhile_cons, hx]
      · simp [List.dropWhile_cons, hx]
  | cons y rest ih =>
      intro x b ha hx
      have hy := ha y (List.mem_cons_self y rest)
      have := ih x b (fun c hc => ha c (List.mem_cons_of_mem _ hc)) hx
      constructor
      · simp [List.takeWhile_cons, hy, this.1]
      · simp [List.dropWhile_cons, hy, this.2]

/-- `takeWhile` keeps a list the predicate accepts throughout. -/
theorem takeWhile_all {α : Type} (p : α → Bool) :
    ∀ (b : List α), (∀ c ∈ b, p c = true) → b.takeWhile p = b := by
  intro b
  induction b with
  | nil => intro _; rfl
  | cons y rest ih =>
      intro h
      have hy := h y (List.mem_cons_self y rest)
      simp [List.takeWhile_cons, hy, ih (fun c hc => h c (List.mem_cons_of_mem _ hc))]

/-- XOR with the same keystream twice is the identity. -/
theorem xorBytes_xorBytes : ∀ (data ks : List Nat), data.length ≤ ks.length →
    xorBytes (xorBytes data ks) ks = data := by
  intro data
  induction data with
  | nil => intro ks _; cases ks <;> rfl
  | cons d rest ih =>
      intro ks hlen
      cases ks with
      | nil => cases hlen
      | cons k krest =>
          have : (d ^^^ k) ^^^ k = d := Nat.xor_cancel_right k d
          simp only [xorBytes, List.zipWith_cons_cons, this]
          exact congrArg _ (ih krest (by simpa using hlen))

/-- Every Unicode scalar value is below `0x110000`. -/
theorem char_toNat_lt (c : Char) : c.toNat < 1114112 := by
  rcases c.valid with h | h
  · simp only [Char.toNat]
    omega
  · simp only [Char.toNat]
    omega

/-- UTF-8 bytes are bytes. -/
theorem utf8EncodeChar_lt (c : Char) : ∀ b ∈ utf8EncodeChar c.toNat, b < 256 := by
  have hv : c.toNat < 1114112 := char_toNat_lt c
  intro b hb
  by_cases h1 : c.toNat < 128
  · simp only [utf8EncodeChar, if_pos h1] at hb
    rcases List.mem_singleton.mp hb with rfl
    omega
  · by_cases h2 : c.toNat < 2048
    · simp only [utf8EncodeChar, if_neg h1, if_pos h2] at hb
      rcases List.mem_cons.mp hb with rfl | hb'
      · omega
      · rcases List.mem_singleton.mp hb' with rfl
        omega
    · by_cases h3 : c.toNat < 65536
      · simp only [utf8EncodeChar, if_neg h1, if_neg h2, if_pos h3] at hb
        rcases List.mem_cons.mp hb with rfl | hb'
        · omega
        · rcases List.mem_cons.mp hb' with rfl | hb''
          · omega
          · rcases List.mem_singleton.mp hb'' with rfl
            omega
      · simp only [utf8EncodeChar, if_neg h1, if_neg h2, if_neg h3] at hb
        rcases List.mem_cons.mp hb with rfl | hb'
        · omega
        · rcases List.mem_cons.mp hb' with rfl | hb''
          · omega
          · rcases List.mem_cons.mp hb'' with rfl | hb3
            · omega
            · rcases List.mem_singleton.mp hb3 with rfl
              omega

theorem utf8Encode_lt (cs : List Char) : ∀ b ∈ utf8Encode cs, b < 256 := by
  intro b hb
  simp only [utf8Encode, List.mem_flatten, List.mem_map] at hb
  obtain ⟨l, ⟨c, _, rfl⟩, hbl⟩ := hb
  exact utf8EncodeChar_lt c b hbl

/-- The UTF-8 encoding of one character is nonempty. -/
theorem utf8EncodeChar_ne_nil (n : Nat) : utf8EncodeChar n ≠ [] := by
  unfold utf8EncodeChar
  by_cases h1 : n < 128
  · simp [h1]
  · by_cases h2 : n < 2048
    · simp [h1, h2]
    · by_cases h3 : n < 65536 <;> simp [h1, h2, h3]

/-- Decoding the front of `utf8EncodeChar c ++ rest` recovers `c` and leaves
`rest`. -/
theorem utf8DecodeOne_encodeChar (c : Char) (rest : List Nat) :
    utf8DecodeOne (utf8EncodeChar c.toNat ++ rest) = some (c, rest) := by
  by_cases h1 : c.toNat < 128
  · rw [show utf8EncodeChar c.toNat = [c.toNat] from by simp [utf8EncodeChar, h1],
      List.singleton_append]
    simp only [utf8DecodeOne, if_pos h1, Char.ofNat_toNat]
  · by_cases h2 : c.toNat < 2048
    · rw [show utf8EncodeChar c.toNat = [192 + c.toNat / 64, 128 + c.toNat % 64] from by
        simp [utf8EncodeChar, h1, h2], List.cons_append, List.singleton_append]
      have e1 : ¬(192 + c.toNat / 64 < 128) := by omega
      have e2 : ¬(192 + c.toNat / 64 < 192) := by omega
      have e3 : 192 + c.toNat / 64 < 224 := by omega
      have e4 : isCont (128 + c.toNat % 64) = true := by
        simp only [isCont, Bool.and_eq_true, decide_eq_true_eq]
        omega
      have ev : (192 + c.toNat / 64 - 192) * 64 + (128 + c.toNat % 64 - 128) = c.toNat := by
        omega
      simp only [utf8DecodeOne, if_neg e1, if_neg e2, if_pos e3, utf8Cont1, e4, if_true, ev,
        Char.ofNat_toNat]
    · by_cases h3 : c.toNat < 65536
      · rw [show utf8EncodeChar c.toNat
            = [224 + c.toNat / 4096, 128 + c.toNat / 64 % 64, 128 + c.toNat % 64] from by
          simp [utf8EncodeChar, h1, h2, h3], List.cons_append, List.cons_append,
          List.singleton_append]
        have e1 : ¬(224 + c.toNat / 4096 < 128) := by omega
        have e2 : ¬(224 + c.toNat / 4096 < 192) := by omega
        have e3 : ¬(224 + c.toNat / 4096 < 224) := by omega
        have e4 : 224 + c.toNat / 4096 < 240 := by omega
        have e5 : (isCont (128 + c.toNat / 64 % 64) && isCont (128 + c.toNat % 64)) = true := by
          simp only [isCont, Bool.and_eq_true, decide_eq_true_eq]
          omega
        have ev : ((224 + c.toNat / 4096 - 224) * 64 + (128 + c.toNat / 64 % 64 - 128)) * 64
            + (128 + c.toNat % 64 - 128) = c.toNat := by omega
        simp only [utf8DecodeOne, if_neg e1, if_neg e2, if_neg e3, if_pos e4, utf8Cont2, e5,
          if_true, ev, Char.ofNat_toNat]
      · rw [show utf8EncodeChar c.toNat
            = [240 + c.toNat / 262144, 128 + c.toNat / 4096 % 64,
               128 + c.toNat / 64 % 64, 128 + c.toNat % 64] from by
          simp [utf8EncodeChar, h1, h2, h3], List.cons_append, List.cons_append,
          List.cons_append, List.singleton_append]
        have e1 : ¬(240 + c.toNat / 262144 < 128) := by omega
        have e2 : ¬(240 + c.toNat / 262144 < 192) := by omega
        have e3 : ¬(240 + c.toNat / 262144 < 224) := by omega
        have e4 : ¬(240 + c.toNat / 262144 < 240) := by omega
        have e5 : (isCont (128 + c.toNat / 4096 % 64) && isCont (128 + c.toNat / 64 % 64)
            && isCont (128 + c.toNat % 64)) = true := by
          simp only [isCont, Bool.and_eq_true, decide_eq_true_eq]
          omega
        have ev : (((240 + c.toNat / 262144 - 240) * 64 + (128 + c.toNat / 4096 % 64 - 128))
            * 64 + (128 + c.toNat / 64 % 64 - 128)) * 64 + (128 + c.toNat % 64 - 128)
            = c.toNat := by omega
        simp only [utf8DecodeOne, if_neg e1, if_neg e2, if_neg e3, if_neg e4, utf8Cont3, e5,
          if_true, ev, Char.ofNat_toNat]

/-- The decoding loop inverts the encoder, given enough fuel. -/
theorem utf8DecodeGo_encode : ∀ (cs : List Char) (fuel : Nat),
    (utf8Encode cs).length < fuel → utf8DecodeGo fuel (utf8Encode cs) = some cs := by
  intro cs
  induction cs with
  | nil =>
      intro fuel hf
      cases fuel with
      | zero => cases hf
      | succ f => rfl
  | cons c rest ih =>
      intro fuel hf
      cases fuel with
      | zero => cases hf
      | succ f =>
          have step : utf8Encode (c :: rest) = utf8EncodeChar c.toNat ++ utf8Encode rest := rfl
          rw [step] at hf ⊢
          have hne : (utf8EncodeChar c.toNat ++ utf8Encode rest).isEmpty = false := by
            cases he : utf8EncodeChar c.toNat with
            | nil => exact absurd he (utf8EncodeChar_ne_nil _)
            | cons x xs => simp [he]
          have hlen : 1 ≤ (utf8EncodeChar c.toNat).length := by
            cases he : utf8EncodeChar c.toNat with
            | nil => exact absurd he (utf8EncodeChar_ne_nil _)
            | cons x xs => simp
          have hrest : (utf8Encode rest).length < f := by
            rw [List.length_append] at hf
            omega
          simp only [utf8DecodeGo, hne, Bool.false_eq_true, if_false,
            utf8DecodeOne_encodeChar c (utf8Encode rest), ih f hrest,
            Option.bind_eq_bind, Option.some_bind]
          rfl

/-- UTF-8 decoding inverts UTF-8 encoding. -/
theorem utf8Decode_utf8Encode (cs : List Char) :
    utf8Decode (utf8Encode cs) = some cs :=
  utf8DecodeGo_encode cs ((utf8Encode cs).length + 1) (Nat.lt_succ_self _)

/-- The keystream is made of bytes and has the requested length. -/
theorem ctrKeystream_lt (key iv : List Nat) (n : Nat) :
    (∀ b ∈ ctrKeystream key iv n, b < 256) ∧ (ctrKeystream key iv n).length = n := by
  constructor
  · intro b hb
    simp only [ctrKeystream, List.mem_map, List.mem_range] at hb
    obtain ⟨i, _, rfl⟩ := hb
    exact Nat.mod_lt _ (by norm_num)
  · simp [ctrKeystream]

/-- XOR of two byte strings is a byte string. -/
theorem xorBytes_lt : ∀ (a b : List Nat), (∀ x ∈ a, x < 256) → (∀ x ∈ b, x < 256) →
    ∀ y ∈ xorBytes a b, y < 256 := by
  intro a
  induction a with
  | nil => intro b _ _ y hy; cases hy
  | cons x rest ih =>
      intro b ha hb y hy
      cases b with
      | nil => cases hy
      | cons k krest =>
          simp only [xorBytes, List.zipWith_cons_cons] at hy
          rcases List.mem_cons.mp hy with rfl | hy2
          · have h1 : x < 2 ^ 8 := by
              have := ha x (List.mem_cons_self x rest)
              omega
            have h2 : k < 2 ^ 8 := by
              have := hb k (List.mem_cons_self k krest)
              omega
            have := Nat.xor_lt_two_pow (n := 8) h1 h2
            omega
          · exact ih krest (fun z hz => ha z (List.mem_cons_of_mem _ hz))
              (fun z hz => hb z (List.mem_cons_of_mem _ hz)) y hy2

/-- `decrypt` inverts `encrypt` under the same secret key, whatever the IV
bytes `randomBytes` produced. -/
theorem decrypt_encrypt (data secretKey : List Char) (iv : List Nat)
    (hiv : ∀ b ∈ iv, b < 256) :
    decrypt (encrypt data secretKey iv) secretKey = some data := by
  have hbytes := utf8Encode_lt data
  have hks := ctrKeystream_lt (scryptKey secretKey) iv (utf8Encode data).length
  have hct : ∀ b ∈ xorBytes (utf8Encode data)
      (ctrKeystream (scryptKey secretKey) iv (utf8Encode data).length), b < 256 :=
    xorBytes_lt _ _ hbytes hks.1
  have hctlen : (xorBytes (utf8Encode data)
      (ctrKeystream (scryptKey secretKey) iv (utf8Encode data).length)).length
      = (utf8Encode data).length := by
    simp [xorBytes, List.length_zipWith, hks.2]
  have hsplit := takeWhile_frame_split (fun c => decide (c ≠ ':'))
    (hexEncode iv) ':' (hexEncode (xorBytes (utf8Encode data)
      (ctrKeystream (scryptKey secretKey) iv (utf8Encode data).length)))
    (hexEncode_ne_colon iv hiv) (by simp)
  simp only [decrypt, encrypt, hsplit.1, hsplit.2,
    takeWhile_all _ _ (hexEncode_ne_colon _ hct),
    hexDecode_hexEncode iv hiv, hexDecode_hexEncode _ hct,
    Option.bind_eq_bind, Option.some_bind, hctlen]
  rw [xorBytes_xorBytes _ _ (by rw [hks.2])]
  exact utf8Decode_utf8Encode data

/-! ## The JSON codec round-trip

The lemmas below culminate in `parseJVal_strValF`: on the `JsonSafe` fragment
(no `Date`, no `undefined`, unique object keys), the parser inverts the
encoder.  The structure mirrors the fuel discipline of the definitions: each
statement carries the encoder fuel bound (`sizeV` dominates the encoder
recursion) and the parser fuel bound (the emitted length dominates the parser
recursion). -/

/-- The digit character of `d < 10` is a digit and carries `d`. -/
theorem digitChar_spec (d : Nat) (h : d < 10) :
    (digitChar d).isDigit = true ∧ (digitChar d).toNat = 48 + d := by
  interval_cases d <;> exact ⟨rfl, rfl⟩

/-- A digit character is none of the characters the parser dispatches on. -/
theorem isDigit_ne_special (c : Char) (h : c.isDigit = true) :
    c ≠ 'n' ∧ c ≠ 't' ∧ c ≠ 'f' ∧ c ≠ '"' ∧ c ≠ '[' ∧ c ≠ '{' ∧ c ≠ '-'
      ∧ c ≠ ']' ∧ c ≠ '}' ∧ c ≠ ',' ∧ c ≠ ':' := by
  refine ⟨?_, ?_, ?_, ?_, ?_, ?_, ?_, ?_, ?_, ?_, ?_⟩ <;>
    (intro hh; rw [hh] at h; exact absurd h (by decide))

/-- The digit run of `n` (with sufficient fuel): nonempty, digits only. -/
theorem natCharsF_digits : ∀ (fuel n : Nat), n < fuel →
    natCharsF fuel n ≠ [] ∧ ∀ c ∈ natCharsF fuel n, c.isDigit = true := by
  intro fuel
  induction fuel with
  | zero => intro n h; cases h
  | succ f ih =>
      intro n h
      by_cases hn : n < 10
      · constructor
        · simp [natCharsF, hn]
        · intro c hc
          simp only [natCharsF, if_pos hn, List.mem_singleton] at hc
          subst hc
          exact (digitChar_spec n hn).1
      · have hd : n / 10 < f := by omega
        constructor
        · simp only [natCharsF, if_neg hn]
          intro hcontra
          exact (ih (n / 10) hd).1 (List.append_eq_nil.mp hcontra).1
        · intro c hc
          simp only [natCharsF, if_neg hn, List.mem_append, List.mem_singleton] at hc
          rcases hc with hc | rfl
          · exact (ih (n / 10) hd).2 c hc
          · exact (digitChar_spec (n % 10) (by omega)).1

/-- The digit fold over a rendered run recovers the number. -/
theorem foldl_natCharsF : ∀ (fuel n : Nat), n < fuel → ∀ (acc : Nat),
    (natCharsF fuel n).foldl (fun a c => a * 10 + (c.toNat - 48)) acc
      = acc * 10 ^ (natCharsF fuel n).length + n := by
  intro fuel
  induction fuel with
  | zero => intro n h; cases h
  | succ f ih =>
      intro n h acc
      by_cases hn : n < 10
      · simp only [natCharsF, if_pos hn, List.foldl_cons, List.foldl_nil,
          (digitChar_spec n hn).2, List.length_singleton, pow_one]
        omega
      · have hd : n / 10 < f := by omega
        simp only [natCharsF, if_neg hn, List.foldl_append, List.foldl_cons,
          List.foldl_nil, List.length_append, List.length_singleton]
        rw [ih (n / 10) hd acc, (digitChar_spec (n % 10) (by omega)).2]
        rw [pow_succ]
        have : acc * (10 ^ (natCharsF f (n / 10)).length * 10)
            = acc * 10 ^ (natCharsF f (n / 10)).length * 10 := by ring
        rw [this]
        omega

/-- `digitsVal` of the rendered run of `n` is `n`. -/
theorem digitsVal_natChars (n : Nat) : digitsVal (natChars n) = n := by
  have := foldl_natCharsF (n + 1) n (Nat.lt_succ_self n) 0
  simpa [digitsVal, natChars] using this

/-- `takeDigits` consumes exactly a digit run, stopping at the boundary. -/
theorem takeDigits_append : ∀ (ds rest : List Char), (∀ c ∈ ds, c.isDigit = true) →
    numBoundary rest = true → takeDigits (ds ++ rest) = (ds, rest) := by
  intro ds
  induction ds with
  | nil =>
      intro rest _ hrest
      cases rest with
      | nil => rfl
      | cons c t =>
          have : c.isDigit = false := by simpa [numBoundary] using hrest
          simp [takeDigits, this]
  | cons d ds2 ih =>
      intro rest hds hrest
      have hd := hds d (List.mem_cons_self d ds2)
      have hih := ih rest (fun c hc => hds c (List.mem_cons_of_mem _ hc)) hrest
      simp only [List.cons_append, takeDigits, hd, if_true, List.append_eq, hih]

/-- The number parser inverts the integer renderer up to a boundary. -/
theorem parseJNumber_intChars (n : Int) (rest : List Char)
    (hrest : numBoundary rest = true) :
    parseJNumber (intChars n ++ rest) = some (.vNum n, rest) := by
  cases n with
  | ofNat m =>
      have hspec := natCharsF_digits (m + 1) m (Nat.lt_succ_self m)
      have hnc : natChars m = natCharsF (m + 1) m := rfl
      obtain ⟨c, t, hct⟩ : ∃ c t, natChars m = c :: t := by
        cases he : natChars m with
        | nil => rw [hnc] at he; exact absurd he hspec.1
        | cons c t => exact ⟨c, t, rfl⟩
      have hcd : c.isDigit = true := by
        apply hspec.2
        rw [← hnc, hct]
        exact List.mem_cons_self c t
      have hcm : c ≠ '-' := (isDigit_ne_special c hcd).2.2.2.2.2.2.1
      have harg : intChars (Int.ofNat m) ++ rest = c :: (t ++ rest) := by
        show natChars m ++ rest = c :: (t ++ rest)
        rw [hct]
        rfl
      rw [harg]
      have hts : takeDigits (c :: (t ++ rest)) = (natChars m, rest) := by
        have h2 : (c :: (t ++ rest)) = natChars m ++ rest := by rw [hct]; rfl
        rw [h2]
        exact takeDigits_append (natChars m) rest (by rw [hnc]; exact hspec.2) hrest
      have hne : (natChars m).isEmpty = false := by rw [hct]; rfl
      simp only [parseJNumber, if_neg hcm, hts, hne, Bool.false_eq_true, if_false,
        digitsVal_natChars]
      rfl
  | negSucc m =>
      have hspec := natCharsF_digits (m + 2) (m + 1) (Nat.lt_succ_self _)
      have hnc : natChars (m + 1) = natCharsF (m + 2) (m + 1) := rfl
      have harg : intChars (Int.negSucc m) ++ rest = '-' :: (natChars (m + 1) ++ rest) := rfl
      rw [harg]
      have hts : takeDigits (natChars (m + 1) ++ rest) = (natChars (m + 1), rest) :=
        takeDigits_append (natChars (m + 1)) rest (by rw [hnc]; exact hspec.2) hrest
      have hne : (natChars (m + 1)).isEmpty = false := by
        cases he : natChars (m + 1) with
        | nil => rw [hnc] at he; exact absurd he hspec.1
        | cons c t => rfl
      have hm : -((m + 1 : Nat) : Int) = Int.negSucc m := by
        simp [Int.negSucc_eq]
      simp only [parseJNumber, if_pos rfl, hts, hne, Bool.false_eq_true, if_false,
        digitsVal_natChars, hm, if_true]

/-- Every escape sequence is at least one character long. -/
theorem one_le_escapeChar_length (c : Char) : 1 ≤ (escapeChar c).length := by
  unfold escapeChar
  split_ifs <;> simp

/-- The escaped rendering of a string is at least as long as the string. -/
theorem length_le_flatten_escape : ∀ (l : List Char),
    l.length ≤ ((l.map escapeChar).flatten).length := by
  intro l
  induction l with
  | nil => simp
  | cons c t ih =>
      simp only [List.map_cons, List.flatten_cons, List.length_append, List.length_cons]
      have := one_le_escapeChar_length c
      omega

/-- One step of the string-body parser on a backslash: decode the escape,
then continue. -/
theorem parseJStrBody_backslash (f : Nat) (X : List Char) :
    parseJStrBody (f + 1) ('\\' :: X) =
      (match parseJEscape X with
       | some er =>
           (match parseJStrBody f er.2 with
            | some p => some (er.1 :: p.1, p.2)
            | none => none)
       | none => none) := by
  cases he : parseJEscape X with
  | none => simp [parseJStrBody, he]
  | some er =>
      cases hp : parseJStrBody f er.2 with
      | none => simp [parseJStrBody, he, hp]
      | some p => simp [parseJStrBody, he, hp]

/-- The `\u00XX` escape decodes back to the control character it rendered. -/
theorem parseJEscape_u (c : Char) (h : c.toNat < 32) (X : List Char) :
    parseJEscape ('u' :: '0' :: '0' :: hexDigitChar (c.toNat / 16)
      :: hexDigitChar (c.toNat % 16) :: X) = some (c, X) := by
  have h1 := hexVal_hexDigitChar (c.toNat / 16) (by omega)
  have h2 := hexVal_hexDigitChar (c.toNat % 16) (by omega)
  have key : Char.ofNat (c.toNat / 16 * 16 + c.toNat % 16) = c := by
    have hx : c.toNat / 16 * 16 + c.toNat % 16 = c.toNat := by omega
    rw [hx, Char.ofNat_toNat]
  simp [parseJEscape, h1, h2, key, show hexVal '0' = some 0 from rfl]

/-- Prepending one escaped character to a string body the parser already
inverts keeps the parse exact. -/
theorem parseJStrBody_escape_cons (f : Nat) (c : Char) (t rest X : List Char)
    (hX : parseJStrBody f X = some (t, rest)) :
    parseJStrBody (f + 1) (escapeChar c ++ X) = some (c :: t, rest) := by
  by_cases hq : c = '"'
  · subst hq
    simp only [show escapeChar '"' = ['\\', '"'] from rfl, List.cons_append,
      List.nil_append, parseJStrBody_backslash,
      show ∀ Y : List Char, parseJEscape ('"' :: Y) = some ('"', Y) from fun _ => rfl, hX]
  by_cases hbs : c = '\\'
  · subst hbs
    simp only [show escapeChar '\\' = ['\\', '\\'] from rfl, List.cons_append,
      List.nil_append, parseJStrBody_backslash,
      show ∀ Y : List Char, parseJEscape ('\\' :: Y) = some ('\\', Y) from fun _ => rfl, hX]
  by_cases h8 : c = Char.ofNat 8
  · subst h8
    simp only [show escapeChar (Char.ofNat 8) = ['\\', 'b'] from rfl, List.cons_append,
      List.nil_append, parseJStrBody_backslash,
      show ∀ Y : List Char, parseJEscape ('b' :: Y) = some (Char.ofNat 8, Y) from
        fun _ => rfl, hX]
  by_cases h9 : c = Char.ofNat 9
  · subst h9
    simp only [show escapeChar (Char.ofNat 9) = ['\\', 't'] from rfl, List.cons_append,
      List.nil_append, parseJStrBody_backslash,
      show ∀ Y : List Char, parseJEscape ('t' :: Y) = some (Char.ofNat 9, Y) from
        fun _ => rfl, hX]
  by_cases h10 : c = Char.ofNat 10
  · subst h10
    simp only [show escapeChar (Char.ofNat 10) = ['\\', 'n'] from rfl, List.cons_append,
      List.nil_append, parseJStrBody_backslash,
      show ∀ Y : List Char, parseJEscape ('n' :: Y) = some (Char.ofNat 10, Y) from
        fun _ => rfl, hX]
  by_cases h12 : c = Char.ofNat 12
  · subst h12
    simp only [show escapeChar (Char.ofNat 12) = ['\\', 'f'] from rfl, List.cons_append,
      List.nil_append, parseJStrBody_backslash,
      show ∀ Y : List Char, parseJEscape ('f' :: Y) = some (Char.ofNat 12, Y) from
        fun _ => rfl, hX]
  by_cases h13 : c = Char.ofNat 13
  · subst h13
    simp only [show escapeChar (Char.ofNat 13) = ['\\', 'r'] from rfl, List.cons_append,
      List.nil_append, parseJStrBody_backslash,
      show ∀ Y : List Char, parseJEscape ('r' :: Y) = some (Char.ofNat 13, Y) from
        fun _ => rfl, hX]
  by_cases h32 : c.toNat < 32
  · simp only [escapeChar, if_neg hq, if_neg hbs, if_neg h8, if_neg h9, if_neg h10,
      if_neg h12, if_neg h13, if_pos h32, List.cons_append, List.nil_append,
      parseJStrBody_backslash, parseJEscape_u c h32, hX]
  · simp only [escapeChar, if_neg hq, if_neg hbs, if_neg h8, if_neg h9, if_neg h10,
      if_neg h12, if_neg h13, if_neg h32, List.cons_append, List.nil_append,
      parseJStrBody, if_neg hq, if_neg hbs, hX]

/-- The string-body parser inverts `escapeChar`-rendering: the escaped body
followed by the closing quote parses back to the original characters. -/
theorem parseJStrBody_escaped : ∀ (l : List Char) (fuel : Nat) (rest : List Char),
    l.length < fuel →
    parseJStrBody fuel ((l.map escapeChar).flatten ++ '"' :: rest) = some (l, rest) := by
  intro l
  induction l with
  | nil =>
      intro fuel rest hf
      cases fuel with
      | zero => omega
      | succ f => rfl
  | cons c t ih =>
      intro fuel rest hf
      cases fuel with
      | zero => omega
      | succ f =>
          have hlen : t.length < f := by
            simp only [List.length_cons] at hf; omega
          have harg : ((c :: t).map escapeChar).flatten ++ '"' :: rest
              = escapeChar c ++ ((t.map escapeChar).flatten ++ '"' :: rest) := by
            simp [List.append_assoc]
          rw [harg]
          exact parseJStrBody_escape_cons f c t rest _ (ih f rest hlen)

/-- Every value has positive structural size. -/
theorem sizeV_pos (v : Value) : 1 ≤ sizeV v := by
  cases v <;> simp [sizeV]

/-- A `JsonSafe` object keeps all of its members under the encoder's
`undefined` filter: no member value is `undefined`. -/
theorem jsonSafe_filter (fs : List (String × Value)) (h : ∀ p ∈ fs, JsonSafe p.2) :
    fs.filter (fun p => !jsStrictEq p.2 Value.vUndef) = fs := by
  apply List.filter_eq_self.mpr
  intro p hp
  obtain ⟨k, v⟩ := p
  have hv := h (k, v) hp
  cases hv <;> rfl

/-- What the encoder emits after an array element never starts with a digit. -/
theorem numBoundary_strArrRest (f : Nat) (es : List Value) (rest : List Char) :
    numBoundary (strArrRestF (f + 1) es ++ rest) = true := by
  cases es <;> rfl

/-- What the encoder emits after an object member never starts with a digit. -/
theorem numBoundary_strObjRest (f : Nat) (ms : List (String × Value)) (rest : List Char) :
    numBoundary (strObjRestF (f + 1) ms ++ rest) = true := by
  cases ms <;> rfl

/-- The first character the encoder emits for a `JsonSafe` value: one of the
parser's dispatch characters. -/
theorem strValF_head (f : Nat) (v : Value) (hs : JsonSafe v) (hf : 1 ≤ f) :
    ∃ c t, strValF f v = c :: t
      ∧ (c = 'n' ∨ c = 't' ∨ c = 'f' ∨ c = '"' ∨ c = '[' ∨ c = '{' ∨ c = '-'
          ∨ c.isDigit = true) := by
  obtain ⟨f, rfl⟩ : ∃ g, f = g + 1 := ⟨f - 1, by omega⟩
  cases hs with
  | null => exact ⟨'n', _, rfl, by simp⟩
  | bool b =>
      cases b
      · exact ⟨'f', _, rfl, by simp⟩
      · exact ⟨'t', _, rfl, by simp⟩
  | num n =>
      cases n with
      | ofNat m =>
          have hd := natCharsF_digits (m + 1) m (Nat.lt_succ_self m)
          obtain ⟨c, t, hct⟩ : ∃ c t, natChars m = c :: t := by
            cases he : natChars m with
            | nil => exact absurd he hd.1
            | cons c t => exact ⟨c, t, rfl⟩
          have hdig : c.isDigit = true := by
            apply hd.2
            rw [show natCharsF (m + 1) m = natChars m from rfl, hct]
            exact List.mem_cons_self c t
          refine ⟨c, t, ?_, by simp [hdig]⟩
          show intChars (Int.ofNat m) = c :: t
          rw [show intChars (Int.ofNat m) = natChars m from rfl, hct]
      | negSucc m => exact ⟨'-', _, rfl, by simp⟩
  | str s => exact ⟨'"', _, rfl, by simp⟩
  | arr es hmem =>
      cases es with
      | nil => exact ⟨'[', [']'], rfl, by simp⟩
      | cons e es2 => exact ⟨'[', _, rfl, by simp⟩
  | obj fs hmem hk =>
      cases hfil : fs.filter (fun p => !jsStrictEq p.2 Value.vUndef) with
      | nil =>
          refine ⟨'{', ['}'], ?_, by simp⟩
          simp only [strValF, hfil]
      | cons m ms =>
          refine ⟨'{', quoteChars m.1 ++ ':' :: strValF f m.2 ++ strObjRestF f ms,
            ?_, by simp⟩
          simp only [strValF, hfil]

/-- A minus sign dispatches the value parser to the number parser. -/
theorem parseJVal_neg (pf : Nat) (t : List Char) :
    parseJVal (pf + 1) ('-' :: t) = parseJNumber ('-' :: t) := by
  simp only [parseJVal]
  split <;>
    (try (rename_i heq; rw [List.cons.injEq] at heq; obtain ⟨hc, ht⟩ := heq;
          try subst hc; try subst ht)) <;>
    simp_all

/-- A digit dispatches the value parser to the number parser. -/
theorem parseJVal_digit (pf : Nat) (c : Char) (t : List Char) (h : c.isDigit = true) :
    parseJVal (pf + 1) (c :: t) = parseJNumber (c :: t) := by
  obtain ⟨hn, htc, hfc, hqc, hbc, hoc, hmc, _, _, _, _⟩ := isDigit_ne_special c h
  simp only [parseJVal]
  split <;>
    (try (rename_i heq; rw [List.cons.injEq] at heq; obtain ⟨hc, ht⟩ := heq;
          try subst hc; try subst ht)) <;>
    simp_all

/-- An opening bracket followed by anything but `]` dispatches the value
parser to the element/rest loop. -/
theorem parseJVal_arr_cons (pf : Nat) (c : Char) (t : List Char) (h : c ≠ ']') :
    parseJVal (pf + 1) ('[' :: c :: t) =
      (do
        let (v, r) ← parseJVal pf (c :: t)
        let (vs, r2) ← parseJArrRest pf r
        pure (Value.vArr (v :: vs), r2)) := by
  simp only [parseJVal]
  split <;>
    (try (rename_i heq; rw [List.cons.injEq] at heq; obtain ⟨hc, ht⟩ := heq;
          try subst hc; try subst ht)) <;>
    simp_all

/-- One parser step on a string literal whose body parse is known. -/
theorem parseJVal_str_step (pf : Nat) (T scs r : List Char)
    (h1 : parseJStrBody pf T = some (scs, r)) :
    parseJVal (pf + 1) ('"' :: T) = some (.vStr (String.mk scs), r) := by
  simp [parseJVal, h1]

/-- One parser step on a nonempty array whose element and rest parses are
known. -/
theorem parseJVal_arr_step (pf : Nat) (c : Char) (t : List Char) (hne : c ≠ ']')
    (v : Value) (r : List Char) (vs : List Value) (r2 : List Char)
    (h1 : parseJVal pf (c :: t) = some (v, r))
    (h2 : parseJArrRest pf r = some (vs, r2)) :
    parseJVal (pf + 1) ('[' :: c :: t) = some (.vArr (v :: vs), r2) := by
  simp only [parseJVal]
  split <;>
    (try (rename_i heq; rw [List.cons.injEq] at heq; obtain ⟨hc, ht⟩ := heq;
          try subst hc; try subst ht)) <;>
    simp_all

/-- One parser step on a nonempty object whose key, first value and member
rest parses are known. -/
theorem parseJVal_obj_step (pf : Nat) (T kcs r2 : List Char) (v : Value)
    (ms : List (String × Value)) (r3 rest : List Char)
    (h1 : parseJStrBody pf T = some (kcs, ':' :: r2))
    (h2 : parseJVal pf r2 = some (v, r3))
    (h3 : parseJObjRest pf r3 = some (ms, rest)) :
    parseJVal (pf + 1) ('{' :: '"' :: T)
      = some (.vObj ((String.mk kcs, v) :: ms), rest) := by
  simp [parseJVal, h1, h2, h3]

/-- One step of the array-rest parser on a comma whose element and rest
parses are known. -/
theorem parseJArrRest_cons_step (pf : Nat) (T : List Char) (v : Value)
    (r : List Char) (vs : List Value) (r2 : List Char)
    (h1 : parseJVal pf T = some (v, r))
    (h2 : parseJArrRest pf r = some (vs, r2)) :
    parseJArrRest (pf + 1) (',' :: T) = some (v :: vs, r2) := by
  simp [parseJArrRest, h1, h2]

/-- One step of the member-rest parser on a comma whose key, value and rest
parses are known. -/
theorem parseJObjRest_cons_step (pf : Nat) (T kcs r2 : List Char) (v : Value)
    (ms : List (String × Value)) (r3 rest : List Char)
    (h1 : parseJStrBody pf T = some (kcs, ':' :: r2))
    (h2 : parseJVal pf r2 = some (v, r3))
    (h3 : parseJObjRest pf r3 = some (ms, rest)) :
    parseJObjRest (pf + 1) (',' :: '"' :: T)
      = some ((String.mk kcs, v) :: ms, rest) := by
  simp [parseJObjRest, h1, h2, h3]

/-- The parser inverts the encoder on the `JsonSafe` fragment: simultaneous
strong induction on the parser fuel over the three mutually recursive
encoders/parsers.  The encoder fuel `f` dominates the encoder recursion
(`sizeV`), the parser fuel `pf` dominates the emitted length. -/
theorem parseJVal_strValF : ∀ pf : Nat,
    (∀ (f : Nat) (v : Value) (rest : List Char), JsonSafe v → sizeV v ≤ f →
      (strValF f v).length < pf → numBoundary rest = true →
      parseJVal pf (strValF f v ++ rest) = some (v, rest))
    ∧ (∀ (f : Nat) (es : List Value) (rest : List Char), (∀ e ∈ es, JsonSafe e) →
      sizeVL es < f →
      (strArrRestF f es).length < pf → numBoundary rest = true →
      parseJArrRest pf (strArrRestF f es ++ rest) = some (es, rest))
    ∧ (∀ (f : Nat) (ms : List (String × Value)) (rest : List Char),
      (∀ p ∈ ms, JsonSafe p.2) → sizeVF ms < f →
      (strObjRestF f ms).length < pf → numBoundary rest = true →
      parseJObjRest pf (strObjRestF f ms ++ rest) = some (ms, rest)) := by
  intro pf
  induction pf with
  | zero =>
      refine ⟨?_, ?_, ?_⟩ <;> (intro f x rest _ _ hlen _; omega)
  | succ pf ih =>
      obtain ⟨ih1, ih2, ih3⟩ := ih
      refine ⟨?_, ?_, ?_⟩
      · intro f v rest hsafe hsz hlen hrest
        cases f with
        | zero => have := sizeV_pos v; omega
        | succ f =>
          cases hsafe with
          | null => exact rfl
          | bool b => cases b <;> exact rfl
          | num n =>
              cases n with
              | ofNat m =>
                  have hd := natCharsF_digits (m + 1) m (Nat.lt_succ_self m)
                  obtain ⟨c, t, hct⟩ : ∃ c t, natChars m = c :: t := by
                    cases he : natChars m with
                    | nil => exact absurd he hd.1
                    | cons c t => exact ⟨c, t, rfl⟩
                  have hdig : c.isDigit = true := by
                    apply hd.2
                    rw [show natCharsF (m + 1) m = natChars m from rfl, hct]
                    exact List.mem_cons_self c t
                  have harg : strValF (f + 1) (.vNum (Int.ofNat m)) ++ rest
                      = c :: (t ++ rest) := by
                    show intChars (Int.ofNat m) ++ rest = c :: (t ++ rest)
                    rw [show intChars (Int.ofNat m) = natChars m from rfl, hct]
                    rfl
                  rw [harg, parseJVal_digit pf c _ hdig]
                  have h2 : (c :: (t ++ rest)) = intChars (Int.ofNat m) ++ rest := by
                    rw [show intChars (Int.ofNat m) = natChars m from rfl, hct]
                    rfl
                  rw [h2]
                  exact parseJNumber_intChars _ _ hrest
              | negSucc m =>
                  have harg : strValF (f + 1) (.vNum (Int.negSucc m)) ++ rest
                      = '-' :: (natChars (m + 1) ++ rest) := rfl
                  rw [harg, parseJVal_neg]
                  have h2 : ('-' :: (natChars (m + 1) ++ rest))
                      = intChars (Int.negSucc m) ++ rest := rfl
                  rw [h2]
                  exact parseJNumber_intChars _ _ hrest
          | str s =>
              have hql : (strValF (f + 1) (.vStr s)).length
                  = ((s.data.map escapeChar).flatten).length + 2 := by
                show (quoteChars s).length = _
                simp only [quoteChars, List.length_cons, List.length_append,
                  List.length_singleton, List.length_nil]
              have hkl : s.data.length < pf := by
                have h2 := length_le_flatten_escape s.data
                omega
              have hb := parseJStrBody_escaped s.data pf rest hkl
              have harg : strValF (f + 1) (.vStr s) ++ rest
                  = '"' :: ((s.data.map escapeChar).flatten ++ '"' :: rest) := by
                show quoteChars s ++ rest = _
                simp [quoteChars, List.append_assoc]
              rw [harg]
              exact parseJVal_str_step pf _ s.data rest hb
          | arr es hmem =>
              cases es with
              | nil => exact rfl
              | cons e es2 =>
                  have hpe := sizeV_pos e
                  have hsz2 : 2 + sizeV e + sizeVL es2 ≤ f + 1 := by
                    have hx : sizeV (Value.vArr (e :: es2))
                        = 1 + (1 + sizeV e + sizeVL es2) := rfl
                    omega
                  have hf1 : 1 ≤ f := by omega
                  have hlen2 : (strValF f e).length + (strArrRestF f es2).length + 1
                      < pf + 1 := by
                    have hx : strValF (f + 1) (Value.vArr (e :: es2))
                        = '[' :: (strValF f e ++ strArrRestF f es2) := rfl
                    rw [hx] at hlen
                    simp only [List.length_cons, List.length_append] at hlen
                    omega
                  obtain ⟨c, t0, hct, hcs⟩ :=
                    strValF_head f e (hmem e (List.mem_cons_self e es2)) hf1
                  have hcne : c ≠ ']' := by
                    rcases hcs with h | h | h | h | h | h | h | h
                    · subst h; decide
                    · subst h; decide
                    · subst h; decide
                    · subst h; decide
                    · subst h; decide
                    · subst h; decide
                    · subst h; decide
                    · exact (isDigit_ne_special c h).2.2.2.2.2.2.2.1
                  have hbnd : numBoundary (strArrRestF f es2 ++ rest) = true := by
                    rw [show f = (f - 1) + 1 from by omega]
                    exact numBoundary_strArrRest _ _ _
                  have h1 : parseJVal pf (strValF f e ++ (strArrRestF f es2 ++ rest))
                      = some (e, strArrRestF f es2 ++ rest) :=
                    ih1 f e _ (hmem e (List.mem_cons_self e es2)) (by omega)
                      (by omega) hbnd
                  have h2 : parseJArrRest pf (strArrRestF f es2 ++ rest)
                      = some (es2, rest) :=
                    ih2 f es2 rest (fun x hx => hmem x (List.mem_cons_of_mem e hx))
                      (by omega) (by omega) hrest
                  have harg : strValF (f + 1) (Value.vArr (e :: es2)) ++ rest
                      = '[' :: (c :: (t0 ++ (strArrRestF f es2 ++ rest))) := by
                    show ('[' :: (strValF f e ++ strArrRestF f es2)) ++ rest = _
                    rw [hct]
                    simp [List.append_assoc]
                  rw [harg]
                  have h1x : parseJVal pf (c :: (t0 ++ (strArrRestF f es2 ++ rest)))
                      = some (e, strArrRestF f es2 ++ rest) := by
                    rw [show c :: (t0 ++ (strArrRestF f es2 ++ rest))
                        = strValF f e ++ (strArrRestF f es2 ++ rest) from by
                      rw [hct]; rfl]
                    exact h1
                  exact parseJVal_arr_step pf c _ hcne e _ es2 rest h1x h2
          | obj fs hmem hk =>
              cases fs with
              | nil => exact rfl
              | cons m ms =>
                  obtain ⟨k, v⟩ := m
                  have hfil : ((k, v) :: ms).filter
                      (fun p => !jsStrictEq p.2 Value.vUndef) = (k, v) :: ms :=
                    jsonSafe_filter _ hmem
                  have hstr : strValF (f + 1) (Value.vObj ((k, v) :: ms))
                      = '{' :: (quoteChars k ++ ':' :: strValF f v
                          ++ strObjRestF f ms) := by
                    simp only [strValF, hfil]
                  have hpv := sizeV_pos v
                  have hsz2 : 2 + sizeV v + sizeVF ms ≤ f + 1 := by
                    have hx : sizeV (Value.vObj ((k, v) :: ms))
                        = 1 + (1 + sizeV v + sizeVF ms) := rfl
                    omega
                  have hlen2 : (quoteChars k).length + (strValF f v).length
                      + (strObjRestF f ms).length + 2 < pf + 1 := by
                    rw [hstr] at hlen
                    simp only [List.length_cons, List.length_append] at hlen
                    omega
                  have hql : (quoteChars k).length
                      = ((k.data.map escapeChar).flatten).length + 2 := by
                    simp only [quoteChars, List.length_cons, List.length_append,
                      List.length_singleton, List.length_nil]
                  have hkl : k.data.length < pf := by
                    have h2 := length_le_flatten_escape k.data
                    omega
                  have hb := parseJStrBody_escaped k.data pf
                    (':' :: (strValF f v ++ (strObjRestF f ms ++ rest))) hkl
                  have hbnd : numBoundary (strObjRestF f ms ++ rest) = true := by
                    rw [show f = (f - 1) + 1 from by omega]
                    exact numBoundary_strObjRest _ _ _
                  have h1 : parseJVal pf (strValF f v ++ (strObjRestF f ms ++ rest))
                      = some (v, strObjRestF f ms ++ rest) :=
                    ih1 f v _ (hmem (k, v) (List.mem_cons_self _ _)) (by omega)
                      (by omega) hbnd
                  have h2 : parseJObjRest pf (strObjRestF f ms ++ rest)
                      = some (ms, rest) :=
                    ih3 f ms rest (fun p hp => hmem p (List.mem_cons_of_mem _ hp))
                      (by omega) (by omega) hrest
                  have harg : strValF (f + 1) (Value.vObj ((k, v) :: ms)) ++ rest
                      = '{' :: '"' :: ((k.data.map escapeChar).flatten
                          ++ '"' :: (':' :: (strValF f v
                              ++ (strObjRestF f ms ++ rest)))) := by
                    rw [hstr]
                    simp [quoteChars, List.append_assoc]
                  rw [harg]
                  exact parseJVal_obj_step pf _ k.data _ v ms _ rest hb h1 h2
      · intro f es rest hsafe hsz hlen hrest
        cases f with
        | zero => omega
        | succ f =>
          cases es with
          | nil => exact rfl
          | cons e es2 =>
              have hpe := sizeV_pos e
              have hsz2 : 1 + sizeV e + sizeVL es2 < f + 1 := by
                have hx : sizeVL (e :: es2) = 1 + sizeV e + sizeVL es2 := rfl
                omega
              have hlen2 : (strValF f e).length + (strArrRestF f es2).length + 1
                  < pf + 1 := by
                have hx : strArrRestF (f + 1) (e :: es2)
                    = ',' :: (strValF f e ++ strArrRestF f es2) := rfl
                rw [hx] at hlen
                simp only [List.length_cons, List.length_append] at hlen
                omega
              have hbnd : numBoundary (strArrRestF f es2 ++ rest) = true := by
                rw [show f = (f - 1) + 1 from by omega]
                exact numBoundary_strArrRest _ _ _
              have h1 : parseJVal pf (strValF f e ++ (strArrRestF f es2 ++ rest))
                  = some (e, strArrRestF f es2 ++ rest) :=
                ih1 f e _ (hsafe e (List.mem_cons_self e es2)) (by omega)
                  (by omega) hbnd
              have h2 : parseJArrRest pf (strArrRestF f es2 ++ rest)
                  = some (es2, rest) :=
                ih2 f es2 rest (fun x hx => hsafe x (List.mem_cons_of_mem e hx))
                  (by omega) (by omega) hrest
              have harg : strArrRestF (f + 1) (e :: es2) ++ rest
                  = ',' :: (strValF f e ++ (strArrRestF f es2 ++ rest)) := by
                show (',' :: (strValF f e ++ strArrRestF f es2)) ++ rest = _
                simp [List.append_assoc]
              rw [harg]
              exact parseJArrRest_cons_step pf _ e _ es2 rest h1 h2
      · intro f ms rest hsafe hsz hlen hrest
        cases f with
        | zero => omega
        | succ f =>
          cases ms with
          | nil => exact rfl
          | cons m ms2 =>
              obtain ⟨k, v⟩ := m
              have hpv := sizeV_pos v
              have hsz2 : 1 + sizeV v + sizeVF ms2 < f + 1 := by
                have hx : sizeVF ((k, v) :: ms2) = 1 + sizeV v + sizeVF ms2 := rfl
                omega
              have hlen2 : (quoteChars k).length + (strValF f v).length
                  + (strObjRestF f ms2).length + 1 < pf + 1 := by
                have hx : strObjRestF (f + 1) ((k, v) :: ms2)
                    = ',' :: (quoteChars k ++ ':' :: strValF f v
                        ++ strObjRestF f ms2) := rfl
                rw [hx] at hlen
                simp only [List.length_cons, List.length_append] at hlen
                omega
              have hql : (quoteChars k).length
                  = ((k.data.map escapeChar).flatten).length + 2 := by
                simp only [quoteChars, List.length_cons, List.length_append,
                  List.length_singleton, List.length_nil]
              have hkl : k.data.length < pf := by
                have h2 := length_le_flatten_escape k.data
                omega
              have hb := parseJStrBody_escaped k.data pf
                (':' :: (strValF f v ++ (strObjRestF f ms2 ++ rest))) hkl
              have hbnd : numBoundary (strObjRestF f ms2 ++ rest) = true := by
                rw [show f = (f - 1) + 1 from by omega]
                exact numBoundary_strObjRest _ _ _
              have h1 : parseJVal pf (strValF f v ++ (strObjRestF f ms2 ++ rest))
                  = some (v, strObjRestF f ms2 ++ rest) :=
                ih1 f v _ (hsafe (k, v) (List.mem_cons_self _ _)) (by omega)
                  (by omega) hbnd
              have h2 : parseJObjRest pf (strObjRestF f ms2 ++ rest)
                  = some (ms2, rest) :=
                ih3 f ms2 rest (fun p hp => hsafe p (List.mem_cons_of_mem _ hp))
                  (by omega) (by omega) hrest
              have harg : strObjRestF (f + 1) ((k, v) :: ms2) ++ rest
                  = ',' :: '"' :: ((k.data.map escapeChar).flatten
                      ++ '"' :: (':' :: (strValF f v
                          ++ (strObjRestF f ms2 ++ rest)))) := by
                show (',' :: (quoteChars k ++ ':' :: strValF f v
                    ++ strObjRestF f ms2)) ++ rest = _
                simp [quoteChars, List.append_assoc]
              rw [harg]
              exact parseJObjRest_cons_step pf _ k.data _ v ms2 _ rest hb h1 h2

/-- `JSON.parse` inverts `JSON.stringify` on the `JsonSafe` fragment. -/
theorem jsonParse_stringify (v : Value) (h : JsonSafe v) :
    jsonParse (jsonStringify v).data = some v := by
  have hdata : (jsonStringify v).data = strValF (sizeV v + 1) v := rfl
  have hmain := (parseJVal_strValF ((strValF (sizeV v + 1) v).length + 1)).1
    (sizeV v + 1) v [] h (Nat.le_succ _) (Nat.lt_succ_self _) rfl
  rw [List.append_nil] at hmain
  unfold jsonParse
  rw [hdata, hmain]

/-! ## Fold lemmas for the `Except`-threaded iteration of the source -/

/-- A `forEach`-style fold of unit steps succeeds when every step does. -/
theorem foldlM_ok_of_all_ok {α : Type} (l : List α) (g : α → Except String Unit)
    (h : ∀ a ∈ l, g a = .ok ()) :
    (l.foldlM (fun _ a => g a) () : Except String Unit) = .ok () := by
  induction l with
  | nil => rfl
  | cons b rest ih =>
      have hb := h b (List.mem_cons_self b rest)
      simp only [List.foldlM_cons, hb]
      exact ih (fun a ha => h a (List.mem_cons_of_mem _ ha))

/-- A `forEach`-style fold of unit steps stops at the single failing step. -/
theorem foldlM_error_of_single {α : Type} (l : List α) (g : α → Except String Unit)
    (e : String) (f : α) (hf : f ∈ l) (he : g f = .error e)
    (hothers : ∀ a ∈ l, g a = .ok () ∨ a = f) :
    (l.foldlM (fun _ a => g a) () : Except String Unit) = .error e := by
  induction l with
  | nil => cases hf
  | cons b rest ih =>
      rcases hothers b (List.mem_cons_self b rest) with hb | rfl
      · simp only [List.foldlM_cons, hb]
        have hf' : f ∈ rest := by
          rcases List.mem_cons.mp hf with rfl | h'
          · rw [he] at hb; cases hb
          · exact h'
        exact ih hf' (fun a ha => hothers a (List.mem_cons_of_mem _ ha))
      · simp only [List.foldlM_cons, he]
        rfl

/-- Strict equality against `undefined` characterises `vUndef`. -/
theorem jsStrictEq_undef_iff (x : Value) : jsStrictEq x .vUndef = true ↔ x = .vUndef := by
  cases x <;> simp [jsStrictEq]

/-- Looking up a unique field in the populated map gives exactly the defined
values that field takes in the existing collection. -/
theorem lookupSet_populate (uniqueFields : List String) (collection : List Doc)
    (f : String) (hf : f ∈ uniqueFields) :
    lookupSet (populateUniqueFieldValues uniqueFields collection) f
      = collection.filterMap (fun item =>
          let v := jsProp (.vObj item) f
          if jsStrictEq v .vUndef then none else some v) := by
  induction uniqueFields with
  | nil => cases hf
  | cons b rest ih =>
      by_cases hb : b = f
      · subst hb
        simp [populateUniqueFieldValues, lookupSet, List.find?]
      · rcases List.mem_cons.mp hf with rfl | hf'
        · exact absurd rfl hb
        · have hbf : (b == f) = false := beq_eq_false_iff_ne.mpr hb
          simpa [populateUniqueFieldValues, lookupSet, List.find?, hbf] using ih hf'

/-- A stored document's defined value of a unique field is in that field's
value set. -/
theorem setHas_stored (collection : List Doc) (f : String) (d : Doc) (v : Value)
    (hd : d ∈ collection) (hx : jsStrictEq (jsProp (.vObj d) f) v = true)
    (hvu : jsStrictEq v .vUndef = false) :
    setHas (collection.filterMap (fun item =>
        let w := jsProp (.vObj item) f
        if jsStrictEq w .vUndef then none else some w)) v = true := by
  have hxu : jsStrictEq (jsProp (.vObj d) f) .vUndef = false := by
    cases hu : jsStrictEq (jsProp (.vObj d) f) .vUndef with
    | false => rfl
    | true =>
        have := (jsStrictEq_undef_iff _).mp hu
        rw [this] at hx
        cases v <;> simp [jsStrictEq] at hx hvu
  refine (List.any_eq_true).mpr ⟨jsProp (.vObj d) f, ?_, hx⟩
  exact List.mem_filterMap.mpr ⟨d, hd, by simp [hxu]⟩

/-- `findIdx?` finds nothing when the predicate holds nowhere. -/
theorem findIdx?_none_of_all_false {α : Type} (p : α → Bool) :
    ∀ (l : List α), (∀ a ∈ l, p a = false) → l.findIdx? p = none := by
  intro l
  induction l with
  | nil => intro _; rfl
  | cons b rest ih =>
      intro h
      have hb := h b (List.mem_cons_self b rest)
      rw [List.findIdx?_cons, hb]
      simpa [List.findIdx?_succ] using ih (fun a ha => h a (List.mem_cons_of_mem _ ha))

/-- `findIndexMatching` finds nothing when no document matches. -/
theorem findIndexMatching_none (docs : List Doc) (query : Value) :
    (∀ d ∈ docs, matchesQuery (.vObj d) query = .ok false) →
    ∀ i, findIndexMatching docs query i = .ok none := by
  induction docs with
  | nil => intro _ _; rfl
  | cons b rest ih =>
      intro h i
      have hb := h b (List.mem_cons_self b rest)
      simp only [findIndexMatching, hb]
      simpa using ih (fun a ha => h a (List.mem_cons_of_mem _ ha)) (i + 1)

/-- Strict inequality with `undefined`, in the form the validator tests. -/
theorem jsStrictEq_undef_false (x : Value) (h : x ≠ .vUndef) :
    jsStrictEq x .vUndef = false := by
  cases hu : jsStrictEq x .vUndef with
  | false => rfl
  | true => exact absurd ((jsStrictEq_undef_iff x).mp hu) h

/-- Bind on a successful `Except` computation reduces. -/
theorem ok_bind {ε α β : Type} (a : α) (f : α → Except ε β) :
    (Except.ok a : Except ε α) >>= f = f a := rfl

/-- Bind short-circuits on a failed `Except` computation. -/
theorem error_bind {ε α β : Type} (e : ε) (f : α → Except ε β) :
    (Except.error e : Except ε α) >>= f = .error e := rfl

/-- Every response `checkItems` produces carries status ERROR. -/
theorem checkItems_error_status (key : String) (itemType : FieldType) :
    ∀ (es : List Value) (err : ValidationResponse),
      checkItems key itemType es = some err → err.status = .ERROR := by
  intro es
  induction es with
  | nil => intro err h; cases h
  | cons e rest ih =>
      intro err h
      by_cases hm : (jsTypeof e != itemType.typeName) = true
      · simp only [checkItems, hm, if_true] at h
        cases h
        rfl
      · rw [Bool.not_eq_true] at hm
        simp only [checkItems, hm, Bool.false_eq_true, if_false] at h
        exact ih err h

/-- The validation loop processes a concatenation of field declarations in
sequence: the first ERROR (or thrown `TypeError`) of the prefix wins,
otherwise validation continues with the suffix. -/
theorem validateFields_append : ∀ (pre rest : SchemaFields) (obj : Value),
    validateFields (sappend pre rest) obj
      = (validateFields pre obj >>= fun r =>
          if r.status == .ERROR then pure r else validateFields rest obj)
  | .nil, rest, obj => rfl
  | .cons key (.mk ty req uq items nested) r, rest, obj => by
      have ih := validateFields_append r rest obj
      simp only [sappend, validateFields]
      rw [bind_assoc]
      refine congrArg (jsPropE obj key >>= ·) (funext fun value => ?_)
      by_cases h1 : (req && jsStrictEq value .vUndef) = true
      · simp [h1]
      · rw [Bool.not_eq_true] at h1
        by_cases h2 : (!jsStrictEq value .vUndef) = true
        · simp only [h1, h2, if_false, if_true, Bool.false_eq_true]
          cases ty with
          | array =>
              by_cases h3 : (!isArray value) = true
              · simp [h1, h2, h3]
              · rw [Bool.not_eq_true] at h3
                simp only [h1, h2, h3, Bool.false_eq_true, if_false]
                cases items with
                | none => simpa using ih
                | some itemType =>
                    cases hc : checkItems key itemType (elemsOf value) with
                    | some err =>
                        have hs : err.status = VStatus.ERROR :=
                          checkItems_error_status key itemType (elemsOf value) err hc
                        simp [hc, hs]
                    | none => simpa [hc] using ih
          | object =>
              by_cases h3 : (jsTypeof value != "object" || isArray value) = true
              · simp [h1, h2, h3]
              · simp only [h1, h2, h3, Bool.false_eq_true, if_false, if_true]
                rw [bind_assoc]
                refine congrArg (validateFields nested value >>= ·) (funext fun nr => ?_)
                by_cases h4 : nr.status = VStatus.ERROR
                · simp [h4]
                · simpa [h4] using ih
          | date =>
              by_cases h3 : (!isDate value) = true
              · simp [h1, h2, h3]
              · simpa [h1, h2, h3] using ih
          | string =>
              by_cases h3 : (jsTypeof value != FieldType.string.typeName) = true
              · simp [h1, h2, h3]
              · simpa [h1, h2, h3] using ih
          | number =>
              by_cases h3 : (jsTypeof value != FieldType.number.typeName) = true
              · simp [h1, h2, h3]
              · simpa [h1, h2, h3] using ih
          | boolean =>
              by_cases h3 : (jsTypeof value != FieldType.boolean.typeName) = true
              · simp [h1, h2, h3]
              · simpa [h1, h2, h3] using ih
        · rw [Bool.not_eq_true] at h2
          simpa [h1, h2] using ih

/-! ## Claim C1 -/

/-- C1 (code bug): the documented operators `$eq`, `$ne` and `$nin` do not
constrain the match.  `applyQueryOperator` pairs each operator with a flag and
accepts whenever the flag is `false` (`!negate || !check` is vacuously true
then); the `$eq`/`$ne`/`$nin` checks carry flag `false` and are discarded, so a
document whose field value violates a declared `$eq` (or `$ne`, or `$nin`)
still matches, both at the operator level and through `matchesQuery`.  The
declared `where`-flagged checks (`$gt` etc.) do constrain, witnessed by the
last two conjuncts. -/
theorem applyQueryOperator_ignores_eq_ne_nin :
    applyQueryOperator (.vNum 1) (.vObj [("$eq", .vNum 2)]) = true
  ∧ applyQueryOperator (.vNum 1) (.vObj [("$ne", .vNum 1)]) = true
  ∧ applyQueryOperator (.vNum 1) (.vObj [("$nin", .vArr [.vNum 1])]) = true
  ∧ matchesQuery (.vObj [("a", .vNum 1)]) (.vObj [("a", .vObj [("$eq", .vNum 2)])]) = .ok true
  ∧ applyQueryOperator (.vNum 1) (.vObj [("$gt", .vNum 5)]) = false
  ∧ applyQueryOperator (.vNum 1) (.vObj [("$in", .vArr [.vNum 2])]) = false :=
  ⟨rfl, rfl, rfl, rfl, rfl, rfl⟩

/-! ## Claim C2 -/

/-- C2 (counterexample): a caller-supplied `_id` does become the stored `_id`.
`createNewDoc` spreads the input document after the generated `_id`
(`{_id: generateId(), ...doc, ...}`), so the caller value overwrites the
generated `"fresh-id"`. -/
theorem createNewDoc_caller_id_becomes_stored_id :
    jsProp (.vObj (createNewDoc "fresh-id" 0 [("_id", .vStr "caller-id")])) "_id"
      = .vStr "caller-id"
  ∧ Value.vStr "caller-id" ≠ .vStr "fresh-id" := ⟨rfl, by simp⟩

/-- C2 (amended): at insert, `createdAt` and `updatedAt` are always set by the
engine (they come after the spread of the caller document, overwriting any
caller value), and the stored `_id` is the generated one provided the caller
document does not itself carry an `_id` key; at update, `updatedAt` is always
refreshed to the engine timestamp, and `_id`/`createdAt` are preserved
provided the patch does not carry those keys. -/
theorem engine_managed_fields :
    (∀ (genId : String) (now : Nat) (doc : Doc),
        jsProp (.vObj (createNewDoc genId now doc)) "createdAt" = .vDate now
      ∧ jsProp (.vObj (createNewDoc genId now doc)) "updatedAt" = .vDate now)
  ∧ (∀ (genId : String) (now : Nat) (doc : Doc), "_id" ∉ doc.map Prod.fst →
        jsProp (.vObj (createNewDoc genId now doc)) "_id" = .vStr genId)
  ∧ (∀ (old update : Doc) (now : Nat),
        jsProp (.vObj (mergeDoc old update now)) "updatedAt" = .vDate now)
  ∧ (∀ (old update : Doc) (now : Nat), "_id" ∉ update.map Prod.fst →
        jsProp (.vObj (mergeDoc old update now)) "_id" = jsProp (.vObj old) "_id")
  ∧ (∀ (old update : Doc) (now : Nat), "createdAt" ∉ update.map Prod.fst →
        jsProp (.vObj (mergeDoc old update now)) "createdAt"
          = jsProp (.vObj old) "createdAt") := by
  refine ⟨fun genId now doc => ⟨?_, ?_⟩, fun genId now doc h => ?_,
          fun old update now => ?_, fun old update now h => ?_,
          fun old update now h => ?_⟩
  · unfold createNewDoc
    rw [jsProp_objSet_other _ _ _ _ (by decide), jsProp_objSet_self]
  · unfold createNewDoc
    rw [jsProp_objSet_self]
  · unfold createNewDoc
    rw [jsProp_objSet_other _ _ _ _ (by decide), jsProp_objSet_other _ _ _ _ (by decide),
        jsProp_spreadMerge_not_mem _ _ _ h]
    rfl
  · unfold mergeDoc
    rw [jsProp_objSet_self]
  · unfold mergeDoc
    rw [jsProp_objSet_other _ _ _ _ (by decide), jsProp_spreadMerge_not_mem _ _ _ h]
  · unfold mergeDoc
    rw [jsProp_objSet_other _ _ _ _ (by decide), jsProp_spreadMerge_not_mem _ _ _ h]

/-- C2 witness: the amended statement at concrete inputs. -/
theorem engine_managed_fields_witness :
    jsProp (.vObj (createNewDoc "g1" 3 [("x", .vNum 1), ("createdAt", .vDate 99)]))
        "createdAt" = .vDate 3
  ∧ jsProp (.vObj (createNewDoc "g1" 3 [("x", .vNum 1)])) "_id" = .vStr "g1"
  ∧ jsProp (.vObj (mergeDoc [("_id", .vStr "a"), ("createdAt", .vDate 1)]
        [("x", .vNum 2)] 9)) "updatedAt" = .vDate 9
  ∧ jsProp (.vObj (mergeDoc [("_id", .vStr "a"), ("createdAt", .vDate 1)]
        [("x", .vNum 2)] 9)) "_id"
      = jsProp (.vObj [("_id", .vStr "a"), ("createdAt", .vDate 1)]) "_id"
  ∧ jsProp (.vObj (mergeDoc [("_id", .vStr "a"), ("createdAt", .vDate 1)]
        [("x", .vNum 2)] 9)) "createdAt"
      = jsProp (.vObj [("_id", .vStr "a"), ("createdAt", .vDate 1)]) "createdAt" :=
  ⟨(engine_managed_fields.1 "g1" 3 _).1,
   engine_managed_fields.2.1 "g1" 3 _ (by decide),
   engine_managed_fields.2.2.1 _ _ 9,
   engine_managed_fields.2.2.2.1 _ _ 9 (by decide),
   engine_managed_fields.2.2.2.2 _ _ 9 (by decide)⟩

/-! ## Claim C3 -/

/-- C3 (code bug): the failing input evaluated.  Schema: unique fields `a`
and `b`; persisted documents `[{a:1, b:2}, {a:2, b:9}]`; update of document 0
with patch `{a: 2}`.  Document 1 (another position) already holds `2` in the
unique field `a`, yet the operation does not fail: the skip set
`new Set(uniqueFields.map(f => docToUpdate[f]))` pools the old document's
values across all unique fields, the new value `2` collides with the old
value of `b`, the duplicate check is skipped, and both documents are
persisted holding `a = 2`. -/
theorem updateDocument_cross_field_unique_bypass :
    updateDocument "people"
        (.cons "a" (.mk .number false true none .nil)
          (.cons "b" (.mk .number false true none .nil) .nil))
        [[("a", .vNum 1), ("b", .vNum 2)], [("a", .vNum 2), ("b", .vNum 9)]]
        0 [("a", .vNum 2)] 7
      = .ok (some [[("a", .vNum 2), ("b", .vNum 2), ("updatedAt", .vDate 7)],
                   [("a", .vNum 2), ("b", .vNum 9)]])
  ∧ getUniqueFields (.cons "a" (.mk .number false true none .nil)
        (.cons "b" (.mk .number false true none .nil) .nil)) = ["a", "b"]
  ∧ jsProp (.vObj [("a", .vNum 2), ("b", .vNum 9)]) "a" = .vNum 2 :=
  ⟨rfl, rfl, rfl⟩

/-! ## Claim C10 -/

/-- C10: any query-field object carrying the key `where` is classified as an
operator object; a declared `where: v` constraint is satisfied exactly when
the field value is strictly equal to `v` (second conjunct: on the singleton
operator object the match equals `===`); and `where` participates in the
conjunction over all declared operator checks (third conjunct: a failing
`where` forces the whole operator object to reject, whatever the other
declared operators say). -/
theorem where_operator_semantics :
    (∀ fields : List (String × Value), "where" ∈ fields.map Prod.fst →
        isQueryOperator (.vObj fields) = true)
  ∧ (∀ item v : Value, jsStrictEq v .vUndef = false →
        applyQueryOperator item (.vObj [("where", v)]) = jsStrictEq item v)
  ∧ (∀ item qo : Value, jsStrictEq (jsProp qo "where") .vUndef = false →
        jsStrictEq item (jsProp qo "where") = false →
        applyQueryOperator item qo = false) := by
  refine ⟨fun fields h => ?_, fun item v hv => ?_, fun item qo h1 h2 => ?_⟩
  · simp only [isQueryOperator, jsKeys, List.any_eq_true]
    exact ⟨"where", h, by decide⟩
  · have e : applyQueryOperator item (.vObj [("where", v)])
        = (!(!jsStrictEq v .vUndef && !jsStrictEq item v) && true) := rfl
    rw [e, hv]
    cases h2 : jsStrictEq item v <;> simp
  · simp [applyQueryOperator, h1, h2]

/-- C10 witness: the three conjuncts at concrete inputs. -/
theorem where_operator_semantics_witness :
    isQueryOperator (.vObj [("where", .vNum 1)]) = true
  ∧ applyQueryOperator (.vNum 5) (.vObj [("where", .vNum 5)]) = jsStrictEq (.vNum 5) (.vNum 5)
  ∧ applyQueryOperator (.vNum 5) (.vObj [("where", .vNum 6), ("$gt", .vNum 0)]) = false :=
  ⟨where_operator_semantics.1 [("where", .vNum 1)] (by decide),
   where_operator_semantics.2.1 (.vNum 5) (.vNum 5) rfl,
   where_operator_semantics.2.2 (.vNum 5) (.vObj [("where", .vNum 6), ("$gt", .vNum 0)])
     rfl rfl⟩

/-! ## Claim C5 -/

/-- C5: inserting a document that supplies, in a unique field `f`, a value
`v` some previously persisted document already holds there fails with the
duplicate-key error naming the collection, the field and the value, and
(being a thrown error, raised before `writeCollectionData`) nothing is
written.  The hypothesis `honly` pins `f` as the only violated unique field,
so that the thrown message is exactly the one for `f` (with several violated
fields the source names the first). -/
theorem insert_duplicate_rejected
    (collectionName : String) (schema : SchemaFields) (collection : List Doc)
    (doc : Doc) (genId : String) (now : Nat) (f : String) (v : Value) (d : Doc)
    (hval : validateDocument schema doc = .ok ())
    (hf : f ∈ getUniqueFields schema)
    (hpv : jsProp (.vObj doc) f = v)
    (hvu : jsStrictEq v .vUndef = false)
    (hd : d ∈ collection)
    (hstored : jsStrictEq (jsProp (.vObj d) f) v = true)
    (honly : ∀ f' ∈ getUniqueFields schema, f' = f ∨
        (!jsStrictEq (jsProp (.vObj doc) f') .vUndef
          && setHas (lookupSet (populateUniqueFieldValues (getUniqueFields schema) collection) f')
              (jsProp (.vObj doc) f')) = false) :
    insertOne collectionName schema collection doc genId now
      = .error (dupKeyMsg collectionName f v) := by
  have hvalfold : ([doc].foldlM (fun _ a => validateDocument schema a) ()
      : Except String Unit) = .ok () :=
    foldlM_ok_of_all_ok [doc] _ (by
      intro a ha
      rw [List.mem_singleton] at ha
      subst ha
      exact hval)
  have hcond : (!jsStrictEq (jsProp (.vObj doc) f) .vUndef
      && setHas (lookupSet (populateUniqueFieldValues (getUniqueFields schema) collection) f)
          (jsProp (.vObj doc) f)) = true := by
    rw [hpv, lookupSet_populate _ _ _ hf, hvu, setHas_stored collection f d v hd hstored hvu]
    rfl
  have hinner : ((getUniqueFields schema).foldlM (fun _ field =>
      if !jsStrictEq (jsProp (.vObj doc) field) .vUndef
          && setHas (lookupSet (populateUniqueFieldValues (getUniqueFields schema) collection) field)
              (jsProp (.vObj doc) field) then
        Except.error (dupKeyMsg collectionName field (jsProp (.vObj doc) field))
      else Except.ok ()) () : Except String Unit)
      = .error (dupKeyMsg collectionName f v) := by
    refine foldlM_error_of_single _ _ _ f hf ?_ ?_
    · rw [hcond, hpv]
      rfl
    · intro a ha
      rcases honly a ha with rfl | hfa
      · exact Or.inr rfl
      · exact Or.inl (by rw [hfa]; rfl)
  have houter : ([doc].foldlM (fun _ dd =>
      ((getUniqueFields schema).foldlM (fun _ field =>
        if !jsStrictEq (jsProp (.vObj dd) field) .vUndef
            && setHas (lookupSet (populateUniqueFieldValues (getUniqueFields schema) collection) field)
                (jsProp (.vObj dd) field) then
          Except.error (dupKeyMsg collectionName field (jsProp (.vObj dd) field))
        else Except.ok ()) () : Except String Unit)) ()
      : Except String Unit) = .error (dupKeyMsg collectionName f v) := by
    refine foldlM_error_of_single _ _ _ doc (List.mem_singleton.mpr rfl) hinner ?_
    intro a ha
    rw [List.mem_singleton] at ha
    exact Or.inr ha
  show insertDocuments collectionName schema collection [doc] [genId] now
      = .error (dupKeyMsg collectionName f v)
  simp only [insertDocuments, hvalfold, houter]
  rfl

/-- C5 witness: schema with unique field `a`, persisted documents
`[{a:1}, {a:2}]`, inserting `{a:2}` raises the duplicate-key error for
`(a, 2)`. -/
theorem insert_duplicate_rejected_witness :
    insertOne "people" (.cons "a" (.mk .number false true none .nil) .nil)
        [[("a", .vNum 1)], [("a", .vNum 2)]] [("a", .vNum 2)] "id1" 7
      = .error (dupKeyMsg "people" "a" (.vNum 2)) :=
  insert_duplicate_rejected "people" _ _ _ "id1" 7 "a" (.vNum 2) [("a", .vNum 2)]
    rfl (by decide) rfl rfl (by simp) rfl (by decide)

/-! ## Claim C6 -/

/-- C6: duplicate checking at insert compares the batch only against the
previously persisted collection, never the batch against itself: an
`insertMany` of two valid documents sharing the same fresh value `v` in the
unique field `f` succeeds, and both documents (completed by the engine
fields) are appended in order to the persisted sequence. -/
theorem insertMany_batch_duplicates_accepted
    (collectionName : String) (schema : SchemaFields) (collection : List Doc)
    (d1 d2 : Doc) (g1 g2 : String) (now : Nat) (f : String) (v : Value)
    (hval1 : validateDocument schema d1 = .ok ())
    (hval2 : validateDocument schema d2 = .ok ())
    (hf : f ∈ getUniqueFields schema)
    (hv1 : jsProp (.vObj d1) f = v)
    (hv2 : jsProp (.vObj d2) f = v)
    (hvu : jsStrictEq v .vUndef = false)
    (hfresh : ∀ f' ∈ getUniqueFields schema, ∀ d ∈ [d1, d2],
        setHas (lookupSet (populateUniqueFieldValues (getUniqueFields schema) collection) f')
          (jsProp (.vObj d) f') = false) :
    insertMany collectionName schema collection [d1, d2] [g1, g2] now
      = .ok (collection ++ [createNewDoc g1 now d1, createNewDoc g2 now d2]) := by
  have hvalfold : ([d1, d2].foldlM (fun _ a => validateDocument schema a) ()
      : Except String Unit) = .ok () :=
    foldlM_ok_of_all_ok [d1, d2] _ (by
      intro a ha
      rcases List.mem_cons.mp ha with rfl | ha'
      · exact hval1
      · rw [List.mem_singleton] at ha'
        subst ha'
        exact hval2)
  have houter : ([d1, d2].foldlM (fun _ dd =>
      ((getUniqueFields schema).foldlM (fun _ field =>
        if !jsStrictEq (jsProp (.vObj dd) field) .vUndef
            && setHas (lookupSet (populateUniqueFieldValues (getUniqueFields schema) collection) field)
                (jsProp (.vObj dd) field) then
          Except.error (dupKeyMsg collectionName field (jsProp (.vObj dd) field))
        else Except.ok ()) () : Except String Unit)) ()
      : Except String Unit) = .ok () := by
    refine foldlM_ok_of_all_ok _ _ ?_
    intro dd hdd
    refine foldlM_ok_of_all_ok _ _ ?_
    intro field hfield
    rw [hfresh field hfield dd hdd]
    simp
  show insertDocuments collectionName schema collection [d1, d2] [g1, g2] now
      = .ok (collection ++ [createNewDoc g1 now d1, createNewDoc g2 now d2])
  simp only [insertDocuments, hvalfold, houter]
  rfl

/-- C6 witness: unique field `a`, empty persisted collection, batch
`[{a:5}, {a:5}]`: both stored. -/
theorem insertMany_batch_duplicates_accepted_witness :
    insertMany "people" (.cons "a" (.mk .number false true none .nil) .nil)
        [] [[("a", .vNum 5)], [("a", .vNum 5)]] ["i1", "i2"] 3
      = .ok ([] ++ [createNewDoc "i1" 3 [("a", .vNum 5)],
                    createNewDoc "i2" 3 [("a", .vNum 5)]]) :=
  insertMany_batch_duplicates_accepted "people" _ [] _ _ "i1" "i2" 3 "a" (.vNum 5)
    rfl rfl (by decide) rfl rfl rfl (by decide)

/-! ## Claim C8 -/

/-- C8: a delete whose target is absent throws the not-found error — raised
before `writeCollectionData`, so the persisted sequence is untouched by the
failing call (in this embedding a mutating operation writes exactly when it
returns `Except.ok`).  First conjunct: `deleteById` with an `_id` no document
holds; second conjunct: `deleteOne` with a query no document matches. -/
theorem failed_delete_is_noop :
    (∀ (docs : List Doc) (_id : String),
        (∀ d ∈ docs, jsStrictEq (jsProp (.vObj d) "_id") (.vStr _id) = false) →
        deleteById docs _id = .error "No document matches the ID")
  ∧ (∀ (docs : List Doc) (query : Value),
        (∀ d ∈ docs, matchesQuery (.vObj d) query = .ok false) →
        deleteOne docs query = .error "No document matches the query") := by
  constructor
  · intro docs _id h
    unfold deleteById
    rw [findIdx?_none_of_all_false _ docs h]
  · intro docs query h
    unfold deleteOne
    rw [findIndexMatching_none docs query h 0]

/-- C8 witness: a one-document collection, deleted by a foreign id and by a
non-matching query. -/
theorem failed_delete_is_noop_witness :
    deleteById [[("_id", .vStr "a")]] "b" = .error "No document matches the ID"
  ∧ deleteOne [[("_id", .vStr "a")]] (.vObj [("_id", .vStr "b")])
      = .error "No document matches the query" :=
  ⟨failed_delete_is_noop.1 [[("_id", .vStr "a")]] "b" (by
      intro d hd
      rw [List.mem_singleton] at hd
      subst hd
      rfl),
   failed_delete_is_noop.2 [[("_id", .vStr "a")]] (.vObj [("_id", .vStr "b")]) (by
      intro d hd
      rw [List.mem_singleton] at hd
      subst hd
      rfl)⟩

/-! ## Claim C7 -/

/-- C7 (counterexample): `typeof null === "object"` in JavaScript, and the
object branch of the validator only rules out non-objects and arrays, so a
declared object field does not return ERROR when the candidate supplies
`null` — the schema `{f: {type: "object", required: false}}` accepts
`{f: null}`. -/
theorem validate_object_field_accepts_null :
    validateFields (.cons "f" (.mk .object false false none .nil) .nil)
        (.vObj [("f", .vNull)]) = .ok ⟨.SUCCESS, ""⟩
  ∧ Value.jsTypeof .vNull = "object" := ⟨rfl, rfl⟩

/-- C7 (amended): for a schema declaring an object-typed field at any
position (after a prefix that validates SUCCESS), a supplied value fails with
the `should be an object` ERROR exactly when its `typeof` is not `"object"`
or it is an array — `null`, whose `typeof` is `"object"`, is not rejected —
and when a nested schema is declared and the supplied value passes that
check, the nested value is recursively validated and the first nested ERROR
is propagated verbatim as the result.  (On a `null` value with a nonempty
nested schema the recursive validation faults on the property read instead
of returning a response; that path is outside this statement.) -/
theorem validate_object_field
    (pre : SchemaFields) (key : String) (req uq : Bool) (items : Option FieldType)
    (nested rest : SchemaFields) (obj v : Value)
    (hpre : validateFields pre obj = .ok ⟨.SUCCESS, ""⟩)
    (hv : jsPropE obj key = .ok v)
    (hvu : v ≠ .vUndef) :
    ((jsTypeof v != "object" || isArray v) = true →
        validateFields (sappend pre (.cons key (.mk .object req uq items nested) rest)) obj
          = .ok ⟨.ERROR, "Property " ++ key ++ " should be an object."⟩)
  ∧ (∀ e, (jsTypeof v != "object" || isArray v) = false →
        validateFields nested v = .ok ⟨.ERROR, e⟩ →
        validateFields (sappend pre (.cons key (.mk .object req uq items nested) rest)) obj
          = .ok ⟨.ERROR, e⟩) := by
  have hbase : validateFields (sappend pre (.cons key (.mk .object req uq items nested) rest)) obj
      = validateFields (.cons key (.mk .object req uq items nested) rest) obj := by
    rw [validateFields_append, hpre]
    rfl
  have hskip : jsStrictEq v .vUndef = false := jsStrictEq_undef_false v hvu
  constructor
  · intro hbad
    have hbad' : ¬jsTypeof v = "object" ∨ isArray v = true := by simpa using hbad
    rw [hbase]
    simp [validateFields, hv, ok_bind, hskip, hbad']
    rfl
  · intro e hgood hnested
    have hgood' : jsTypeof v = "object" ∧ isArray v = false := by simpa using hgood
    rw [hbase]
    simp [validateFields, hv, ok_bind, hskip, hgood'.1, hgood'.2, hnested]
    rfl

/-- C7 witness: both conjuncts at concrete inputs.  A number supplied for an
object field yields the `should be an object` ERROR; a nested schema
requiring `g` propagates `Property g is required.` verbatim through the outer
validation. -/
theorem validate_object_field_witness :
    validateFields (sappend .nil (.cons "f" (.mk .object false false none .nil) .nil))
        (.vObj [("f", .vNum 3)])
      = .ok ⟨.ERROR, "Property " ++ "f" ++ " should be an object."⟩
  ∧ validateFields (sappend .nil (.cons "f" (.mk .object false false none
        (.cons "g" (.mk .string true false none .nil) .nil)) .nil))
        (.vObj [("f", .vObj [("h", .vNum 1)])])
      = .ok ⟨.ERROR, "Property g is required."⟩ :=
  ⟨(validate_object_field .nil "f" false false none .nil .nil
      (.vObj [("f", .vNum 3)]) (.vNum 3) rfl rfl (by simp)).1 rfl,
   (validate_object_field .nil "f" false false none
      (.cons "g" (.mk .string true false none .nil) .nil) .nil
      (.vObj [("f", .vObj [("h", .vNum 1)])]) (.vObj [("h", .vNum 1)])
      rfl rfl (by simp)).2 "Property g is required." rfl rfl⟩

/-! ## Claim C9 -/

/-- C9: a successful `updateDocument` (the shared path of `updateOne` and
`updateById` once the target index is located) skips the write exactly when
the merged document — the patch spread over the stored document with
`updatedAt` forcibly refreshed — is `deepEqual` to the stored one: the result
is `none` (no `writeCollectionData` call, the persisted file stays unchanged)
in that case, and otherwise the full sequence with the merged document
replacing the stored one in place. -/
theorem updateDocument_noop_or_write
    (collectionName : String) (schema : SchemaFields) (docs : List Doc)
    (docIndex : Nat) (update : Doc) (now : Nat) (res : Option (List Doc))
    (h : updateDocument collectionName schema docs docIndex update now = .ok res) :
    (deepEqual (.vObj (docs.getD docIndex []))
        (.vObj (mergeDoc (docs.getD docIndex []) update now)) = true → res = none)
  ∧ (deepEqual (.vObj (docs.getD docIndex []))
        (.vObj (mergeDoc (docs.getD docIndex []) update now)) = false →
      res = some (docs.set docIndex (mergeDoc (docs.getD docIndex []) update now))) := by
  simp only [updateDocument] at h
  cases hv : validateDocument schema (mergeDoc (docs.getD docIndex []) update now) with
  | error e => rw [hv] at h; cases h
  | ok u =>
      cases u
      rw [hv] at h
      cases hfold : ((getUniqueFields schema).foldlM (fun _ field =>
          let newV := jsProp (.vObj (mergeDoc (docs.getD docIndex []) update now)) field
          if !jsStrictEq newV .vUndef
              && !setHas ((getUniqueFields schema).map (fun field =>
                    jsProp (.vObj (docs.getD docIndex [])) field)) newV then
            if docs.enum.any (fun p =>
                p.1 != docIndex
                  && jsStrictEq (jsProp (.vObj p.2) field) newV) then
              Except.error (dupKeyMsg collectionName field newV)
            else Except.ok ()
          else Except.ok ()) () : Except String Unit) with
      | error e => rw [hfold] at h; cases h
      | ok u =>
          cases u
          rw [hfold] at h
          constructor
          · intro hde
            rw [hde] at h
            cases h
            rfl
          · intro hde
            rw [hde] at h
            cases h
            rfl

/-- C9 witness: both branches at concrete inputs.  No-op side: document
`{updatedAt: Date(0)}`, empty patch, new timestamp 5 — the merge only moves
`updatedAt` between two `Date` objects, which `deepEqual` cannot distinguish
(a `Date` has no own enumerable keys), so the write is skipped.  Write side:
document `{x:1}` gains an `updatedAt` key, so the merged document differs and
the replaced sequence is persisted. -/
theorem updateDocument_noop_or_write_witness :
    (none : Option (List Doc)) = none
  ∧ (some [[("x", .vNum 1), ("updatedAt", .vDate 5)]] : Option (List Doc))
      = some ([[("x", .vNum 1)]].set 0 (mergeDoc [("x", .vNum 1)] [] 5)) :=
  ⟨(updateDocument_noop_or_write "c" .nil [[("updatedAt", .vDate 0)]] 0 [] 5 none rfl).1 rfl,
   (updateDocument_noop_or_write "c" .nil [[("x", .vNum 1)]] 0 [] 5
      (some [[("x", .vNum 1), ("updatedAt", .vDate 5)]]) rfl).2 rfl⟩

/-! ## Claim C4 -/

/-- C4 (counterexample): the round-trip law fails on a document holding a
`Date` value — and every document the engine stores holds `Date` values,
because `createNewDoc` sets `createdAt`/`updatedAt` to `new Date()`.
`JSON.stringify` renders a `Date` as its ISO string, and `JSON.parse` returns
that string as a plain string, so the deserialized sequence is not value-equal
to the serialized one. -/
theorem adapter_date_roundtrip_failure :
    (serialize none [] (.vArr [.vObj [("createdAt", .vDate 0)]])).bind (deserialize none)
      = .ok (.vArr [.vObj [("createdAt", .vStr "1970-01-01T00:00:00.000Z")]])
    ∧ Value.vStr "1970-01-01T00:00:00.000Z" ≠ Value.vDate 0 :=
  ⟨rfl, by simp⟩

/-- C4 (amended): on the JSON-representable fragment — no `Date`, no
`undefined`, pairwise-distinct object keys — `deserialize ∘ serialize` is the
identity for the reference `JsonAdapter`, both without credentials (plain JSON
codec) and with credentials (JSON encode, AES-256-CTR encrypt under the
supplied IV framed as `ivHex:ciphertextHex`, then split, decrypt, JSON
decode), field order and all metadata fields preserved. -/
theorem adapter_roundtrip (x : Value) (skey : List Char) (iv : List Nat)
    (hsafe : JsonSafe x) (hobj : jsTypeof x = "object")
    (hnn : jsStrictEq x .vNull = false) (hiv : ∀ b ∈ iv, b < 256) :
    (serialize none iv x).bind (deserialize none) = .ok x
    ∧ (serialize (some skey) iv x).bind (deserialize (some skey)) = .ok x := by
  have hguard : (jsTypeof x != "object" || jsStrictEq x .vNull) = false := by
    rw [hobj, hnn]
    rfl
  have hp := jsonParse_stringify x hsafe
  constructor
  · simp only [serialize, hguard, Bool.false_eq_true, if_false]
    show deserialize none (jsonStringify x).data = .ok x
    simp only [deserialize, hp]
  · simp only [serialize, hguard, Bool.false_eq_true, if_false]
    show deserialize (some skey) (encrypt (jsonStringify x).data skey iv) = .ok x
    have hd := decrypt_encrypt (jsonStringify x).data skey iv hiv
    simp only [deserialize, hd, hp]

/-- C4 witness: the amended round-trip at a concrete one-document sequence,
in both the plain and the encrypted configuration. -/
theorem adapter_roundtrip_witness :
    (serialize none (List.range 16) (.vArr [.vObj [("a", .vNum 1)]])).bind
        (deserialize none)
      = .ok (.vArr [.vObj [("a", .vNum 1)]])
    ∧ (serialize (some (secretKeyOf "u" "p")) (List.range 16)
          (.vArr [.vObj [("a", .vNum 1)]])).bind
        (deserialize (some (secretKeyOf "u" "p")))
      = .ok (.vArr [.vObj [("a", .vNum 1)]]) :=
  adapter_roundtrip (.vArr [.vObj [("a", .vNum 1)]]) (secretKeyOf "u" "p")
    (List.range 16)
    (JsonSafe.arr _ (fun e he => by
      simp only [List.mem_singleton] at he
      subst he
      exact JsonSafe.obj _ (fun p hp => by
          simp only [List.mem_singleton] at hp
          subst hp
          exact JsonSafe.num 1)
        (by simp)))
    rfl rfl (by
      intro b hb
      have := List.mem_range.mp hb
      omega)

end ValiDb
